import Mathlib

/-!
Verification of the k-way merge operator of velox/exec/Merge.h.

The operator consumes N individually sorted row streams and produces a single
globally sorted stream, cooperating with a non-blocking scheduler: whenever a
source is not ready it records a blocking condition instead of waiting.

We embed the code shallowly:
* row handles (`char*` into the RowContainer) become an abstract type `ρ`;
* `RowContainer::compare` becomes an abstract function
  `compare : ρ → ρ → Nat → CompareFlags → Int`;
* `Merge::Comparator::operator()` is translated directly from its inline body
  in the header;
* the engine bodies (`Merge::getOutput`, `Merge::pushSource`,
  `Merge::ensureSourcesReady`, `Merge::isBlocked`, declared in the header with
  their definitions living in Merge.cpp, which is not part of the sources here)
  are modelled from the specification's algorithm (spec section 4.2), with the
  static (LocalMerge) provisioning policy;
* `std::priority_queue` is modelled as a list together with a deterministic
  extraction of a minimal element under the comparator.
-/

/-- `core::SortOrder`: direction and null placement of one sort key, with the
`isAscending` / `isNullsFirst` accessors used by the comparator. -/
structure SortOrder where
  isAscending : Bool
  isNullsFirst : Bool
  deriving DecidableEq, Repr

/-- The flags struct passed to `RowContainer::compare` in Merge.h line 81:
`{key.second.isNullsFirst(), key.second.isAscending(), false}`. -/
structure CompareFlags where
  nullsFirst : Bool
  ascending : Bool
  equalsOnly : Bool
  deriving DecidableEq, Repr

/-- `Merge::SourceRow = std::pair<size_t, char*>`: a source index paired with a
row handle. -/
def SourceRow (ρ : Type) : Type := Nat × ρ

/-- `Merge::Comparator::operator()` (Merge.h lines 75-86), translated from the
inline body: walk `keyInfo_` in order; the first key whose
`rowContainer_->compare` result is non-zero decides the answer (`result > 0`);
if every key compares to zero, return `false`.  `compare` stands for
`rowContainer_->compare` and `keyInfo` for `keyInfo_`. -/
def comparatorOp (compare : ρ → ρ → Nat → CompareFlags → Int)
    (keyInfo : List (Nat × SortOrder)) (lhs rhs : SourceRow ρ) : Bool :=
  match keyInfo with
  | [] => false
  | key :: rest =>
    let result := compare lhs.2 rhs.2 key.1
      ⟨key.2.isNullsFirst, key.2.isAscending, false⟩
    if result ≠ 0 then decide (result > 0)
    else comparatorOp compare rest lhs rhs

/-- The specification's description of the comparator (spec section 4.1),
written from the spec's words for comparison with `comparatorOp`: evaluate the
keys in list order, the first key producing a non-zero row-store comparison
determines the outcome — true iff that comparison is positive — and if all
keys tie the result is false. -/
def specRankedAfter (compare : ρ → ρ → Nat → CompareFlags → Int)
    (keyInfo : List (Nat × SortOrder)) (lhs rhs : SourceRow ρ) : Bool :=
  match (keyInfo.map (fun key => compare lhs.2 rhs.2 key.1
      ⟨key.2.isNullsFirst, key.2.isAscending, false⟩)).find? (fun r => r != 0) with
  | some r => decide (r > 0)
  | none => false

/-- Claim C2: for every pair of SourceRow values, the Comparator returns true
iff the left row is strictly ranked after the right row under the configured
SortKey list: it evaluates the keys in list order, the first key whose
row-store comparison is non-zero determines the result (true iff that
comparison is positive), and if all keys compare equal it returns false. -/
theorem comparator_eq_specRankedAfter (compare : ρ → ρ → Nat → CompareFlags → Int)
    (keyInfo : List (Nat × SortOrder)) (lhs rhs : SourceRow ρ) :
    comparatorOp compare keyInfo lhs rhs = specRankedAfter compare keyInfo lhs rhs := by
  induction keyInfo with
  | nil => rfl
  | cons key rest ih =>
    simp only [comparatorOp, specRankedAfter, List.map_cons, List.find?]
    by_cases h : compare lhs.2 rhs.2 key.1 ⟨key.2.isNullsFirst, key.2.isAscending, false⟩ = 0
    · simp [h, ih, specRankedAfter]
    · have hb : (compare lhs.2 rhs.2 key.1
          ⟨key.2.isNullsFirst, key.2.isAscending, false⟩ != 0) = true := by
        simpa [bne_iff_ne] using h
      simp [h, hb]

/-- Claim C10: the Comparator is irreflexive (given that the row store compares
a handle to itself as zero) and depends only on the row handles, never on the
source-index component of a SourceRow. -/
theorem comparator_irrefl_and_index_independent
    (compare : ρ → ρ → Nat → CompareFlags → Int) (keyInfo : List (Nat × SortOrder)) :
    (∀ (i : Nat) (h : ρ), (∀ ch f, compare h h ch f = 0) →
      comparatorOp compare keyInfo (i, h) (i, h) = false) ∧
    (∀ (i i' j j' : Nat) (a b : ρ),
      comparatorOp compare keyInfo (i, a) (j, b) =
        comparatorOp compare keyInfo (i', a) (j', b)) := by
  constructor
  · intro i h hrefl
    induction keyInfo with
    | nil => rfl
    | cons key rest ih => simp [comparatorOp, hrefl, ih]
  · intro i i' j j' a b
    induction keyInfo with
    | nil => rfl
    | cons key rest ih => simp [comparatorOp, ih]

/-- Witness for C10: a concrete row type (integers), a single ascending key,
and the row-store comparison given by subtraction. -/
theorem comparator_irrefl_and_index_independent_witness :
    comparatorOp (fun (a b : Int) _ _ => a - b) [(0, ⟨true, true⟩)] (0, (5 : Int)) (0, 5) = false ∧
    comparatorOp (fun (a b : Int) _ _ => a - b) [(0, ⟨true, true⟩)] (1, (5 : Int)) (2, 7) =
      comparatorOp (fun (a b : Int) _ _ => a - b) [(0, ⟨true, true⟩)] (3, (5 : Int)) (4, 7) :=
  ⟨(comparator_irrefl_and_index_independent (fun a b _ _ => a - b) [(0, ⟨true, true⟩)]).1
      0 5 (fun _ _ => by simp),
   (comparator_irrefl_and_index_independent (fun a b _ _ => a - b) [(0, ⟨true, true⟩)]).2
      1 3 2 4 5 7⟩

/-- A response of the per-source pull endpoint (spec section 6, Source
boundary): `next() -> {Batch(rows), Blocked(waitHandle), EndOfStream}`. -/
inductive SourceResp (ρ : Type) where
  | batch (rows : List ρ)
  | blocked
  | eos
  deriving DecidableEq, Repr

/-- Engine-side state of one source: the remaining scripted responses of the
source, the staged remainder of the most recently pulled batch (spec section
4.2, step 2a), and the permanent exhaustion flag. -/
structure SourceState (ρ : Type) where
  script : List (SourceResp ρ)
  staged : List ρ
  exhausted : Bool
  deriving DecidableEq, Repr

/-- Modelled from the spec: the private state of `Merge` (Merge.h lines
96-107, manipulated by the Merge.cpp bodies that are not among the sources):
the attached sources, the `candidates_` priority structure as a list of
SourceRow, and the recorded `blockingReason_` collapsed to a flag. -/
structure MergeState (ρ : Type) where
  srcs : List (SourceState ρ)
  frontier : List (Nat × ρ)
  blocked : Bool
  deriving DecidableEq, Repr

/-- Whether source `i` currently has a candidate row in the frontier. -/
def hasCandidate (st : MergeState ρ) (i : Nat) : Bool :=
  st.frontier.any (fun e => e.1 == i)

/-- The rows a script will still supply: the rows of its batches up to its
first end-of-stream response. -/
def scriptRows : List (SourceResp ρ) → List ρ
  | [] => []
  | SourceResp.batch rs :: tl => rs ++ scriptRows tl
  | SourceResp.blocked :: tl => scriptRows tl
  | SourceResp.eos :: _ => []

/-- The rows still pending at a source: staged rows plus future script rows;
an exhausted source is never pulled again, so nothing is pending there. -/
def pendingOf (s : SourceState ρ) : List ρ :=
  if s.exhausted then [] else s.staged ++ scriptRows s.script

/-- All rows still inside the engine: candidate rows in the frontier plus the
pending rows of every source. -/
def pendingRows (st : MergeState ρ) : List ρ :=
  st.frontier.map Prod.snd ++ (st.srcs.map pendingOf).flatten

/-- Modelled from the spec: `Merge::pushSource` (declared at Merge.h line 93;
its body lives in Merge.cpp, which is not among the sources). Spec section
4.2: pull the next row of source `i` into the frontier — from the staged
remainder of its last batch if any, else from the source's next response: a
batch stages its rows and pushes the first into the frontier, a not-ready
response records the blocking condition, end-of-stream marks the source
exhausted permanently. A batch with zero rows is treated as not-ready (spec
section 9, open question). An exhausted source is left untouched. -/
def pushSource (st : MergeState ρ) (i : Nat) : MergeState ρ :=
  match st.srcs[i]? with
  | none => st
  | some s =>
    if s.exhausted then st
    else
      match s.staged with
      | r :: rest =>
        { st with
          srcs := st.srcs.set i { s with staged := rest }
          frontier := (i, r) :: st.frontier }
      | [] =>
        match s.script with
        | SourceResp.batch (r :: rest) :: tl =>
          { st with
            srcs := st.srcs.set i { s with script := tl, staged := rest }
            frontier := (i, r) :: st.frontier }
        | SourceResp.batch [] :: tl =>
          { st with srcs := st.srcs.set i { s with script := tl }, blocked := true }
        | SourceResp.blocked :: tl =>
          { st with srcs := st.srcs.set i { s with script := tl }, blocked := true }
        | SourceResp.eos :: tl =>
          { st with srcs := st.srcs.set i { s with script := tl, exhausted := true } }
        | [] =>
          { st with srcs := st.srcs.set i { s with exhausted := true } }

/-- One pass over the given source indices (spec section 4.2, step 2): pull a
row for each active source that has no candidate in the frontier, halting the
pass immediately if a source reports not-ready. -/
def ensureLoop (st : MergeState ρ) : List Nat → MergeState ρ
  | [] => st
  | i :: rest =>
    match st.srcs[i]? with
    | none => ensureLoop st rest
    | some s =>
      if s.exhausted || hasCandidate st i then ensureLoop st rest
      else
        let st2 := pushSource st i
        if st2.blocked then st2 else ensureLoop st2 rest

/-- Modelled from the spec: `Merge::ensureSourcesReady` (declared at Merge.h
line 94; body in Merge.cpp, not among the sources). It clears the previous
blocking reason (the wait signal has fired when the scheduler calls again) and
guarantees every active source has a candidate row in the frontier, halting if
one reports not-ready. With the static (LocalMerge) provisioning policy all
sources are attached up front, so `addMergeSources` itself never blocks. -/
def ensureSourcesReady (st : MergeState ρ) : MergeState ρ :=
  ensureLoop { st with blocked := false } (List.range st.srcs.length)

/-- Extraction of the top of `candidates_` (a `std::priority_queue` ordered by
the Comparator, a greater-than predicate, so its top is a candidate that the
Comparator ranks after no other). Returns a minimal SourceRow under `gt` on
the row handles together with the remaining candidates; ties keep the earlier
list position. -/
def popMin (gt : ρ → ρ → Bool) : List (Nat × ρ) → Option ((Nat × ρ) × List (Nat × ρ))
  | [] => none
  | x :: xs =>
    match popMin gt xs with
    | none => some (x, xs)
    | some (m, rest) => if gt x.2 m.2 then some (m, x :: rest) else some (x, xs)

/-- `Merge::kBatchSizeInBytes` (Merge.h line 62): output batches are bounded
by a 2 MiB byte budget. -/
def kBatchSizeInBytes : Nat := 2 * 1024 * 1024

/-- Accumulated byte size of a batch of rows under a size function. -/
def sizeSum (size : ρ → Nat) (rows : List ρ) : Nat :=
  (rows.map size).sum

/-- Modelled from the spec: the extraction loop of `Merge::getOutput` (spec
section 4.2): while the frontier is non-empty and the accumulated byte size is
below the budget, pop the globally-first SourceRow, append its row to the
output batch, and refill that row's source; if the refill reports not-ready,
record blocking and stop extracting, keeping the rows already extracted. The
fuel argument only bounds the recursion; callers pass enough of it. -/
def extractLoop (gt : ρ → ρ → Bool) (size : ρ → Nat) (budget : Nat) :
    Nat → MergeState ρ → List ρ → Nat → MergeState ρ × List ρ
  | 0, st, out, _ => (st, out)
  | fuel + 1, st, out, bytes =>
    if bytes < budget then
      match popMin gt st.frontier with
      | none => (st, out)
      | some (m, rest) =>
        let st2 := pushSource { st with frontier := rest } m.1
        if st2.blocked then (st2, out ++ [m.2])
        else extractLoop gt size budget fuel st2 (out ++ [m.2]) (bytes + size m.2)
    else (st, out)

/-- Modelled from the spec: `Merge::getOutput` (declared at Merge.h line 46;
body in Merge.cpp, not among the sources). First guarantee every active source
has a candidate row in the frontier; if that blocks, return no rows; otherwise
extract rows in merge order until the frontier empties, the byte budget is
reached, or a refill blocks. -/
def getOutput (gt : ρ → ρ → Bool) (size : ρ → Nat) (budget : Nat)
    (st : MergeState ρ) : MergeState ρ × List ρ :=
  let st1 := ensureSourcesReady st
  if st1.blocked then (st1, [])
  else extractLoop gt size budget ((pendingRows st1).length + 1) st1 [] 0

/-- Modelled from the spec: `Merge::isBlocked` (Merge.h line 44; body in
Merge.cpp): reports the recorded blocking reason to the scheduler before the
next produce-output call. -/
def isBlocked (st : MergeState ρ) : Bool := st.blocked

/-- Modelled from the spec (section 4.2, termination): end-of-stream is
reached exactly when every source is exhausted and the frontier is empty. -/
def isFinished (st : MergeState ρ) : Bool :=
  st.frontier.isEmpty && st.srcs.all (fun s => s.exhausted)

/-- Modelled from the spec: the initial state of a LocalMerge operator — all
sources attached up front (static provisioning), nothing staged, nothing in
the frontier. Each source is given by its scripted response sequence. -/
def initState (scripts : List (List (SourceResp ρ))) : MergeState ρ :=
  { srcs := scripts.map (fun sc => { script := sc, staged := [], exhausted := false }),
    frontier := [], blocked := false }

/-- The driver loop: `n` successive produce-output calls, concatenating the
returned batches (a blocked call contributes no rows and the next call
re-polls after the wait signal fires). -/
def runCalls (gt : ρ → ρ → Bool) (size : ρ → Nat) (budget : Nat) :
    Nat → MergeState ρ → MergeState ρ × List ρ
  | 0, st => (st, [])
  | n + 1, st =>
    let r1 := getOutput gt size budget st
    let r2 := runCalls gt size budget n r1.1
    (r2.1, r1.2 ++ r2.2)

/-- The rows supplied over their lifetime by all sources of a script list. -/
def suppliedRows (scripts : List (List (SourceResp ρ))) : List ρ :=
  (scripts.map scriptRows).flatten

/-- Every attached source is either exhausted or visible in the frontier. -/
def allActiveCovered (st : MergeState ρ) : Bool :=
  (List.range st.srcs.length).all (fun i =>
    match st.srcs[i]? with
    | none => true
    | some s => s.exhausted || hasCandidate st i)

/-- The number of active (attached, non-exhausted) sources. -/
def activeCount (st : MergeState ρ) : Nat :=
  (st.srcs.filter (fun s => !s.exhausted)).length

/-- The row-handle order induced by the Comparator; by C10 the source-index
components are irrelevant to it. -/
def keyGt (compare : ρ → ρ → Nat → CompareFlags → Int)
    (keyInfo : List (Nat × SortOrder)) (a b : ρ) : Bool :=
  comparatorOp compare keyInfo (0, a) (0, b)

/-- Asymmetry of a strict comparison predicate. -/
def GtAsymm (gt : ρ → ρ → Bool) : Prop :=
  ∀ a b, gt a b = true → gt b a = false

/-- Transitivity of the complement of a strict comparison predicate. -/
def LeTrans (gt : ρ → ρ → Bool) : Prop :=
  ∀ a b c, gt a b = false → gt b c = false → gt a c = false

/-- Modelled from the spec: operator construction with configuration checking.
The `Merge` constructor body (Merge.cpp) is not among the sources; spec
section 7 classifies an empty SortKey list as malformed configuration that
must fail fast, aborting the operator with a descriptive fault instead of
proceeding. -/
def mergeInit (keyInfo : List (Nat × SortOrder)) (scripts : List (List (SourceResp ρ))) :
    Except String (List (Nat × SortOrder) × MergeState ρ) :=
  if keyInfo.isEmpty then
    Except.error "Merge: the list of sorting keys must not be empty"
  else
    Except.ok (keyInfo, initState scripts)

/-- Replacing the element at index `i` changes the flattened image by swapping
the old element's contribution for the new one's. -/
theorem perm_flatten_map_set {α β : Type} {l : List α} {i : Nat} {b : α}
    (h : l[i]? = some b) (a : α) (f : α → List β) :
    List.Perm (f b ++ ((l.set i a).map f).flatten) (f a ++ (l.map f).flatten) := by
  induction l generalizing i with
  | nil => simp at h
  | cons x tl ih =>
    cases i with
    | zero =>
      obtain rfl : x = b := by simpa using h
      simpa [List.set] using List.perm_append_comm_assoc (f x) (f a) ((tl.map f).flatten)
    | succ j =>
      have h' : tl[j]? = some b := by simpa using h
      simp only [List.set, List.map_cons, List.flatten_cons]
      exact ((List.perm_append_comm_assoc _ _ _).trans
        ((ih h').append_left (f x))).trans (List.perm_append_comm_assoc _ _ _)

/-- Cancel a shared prefix on both sides of a permutation with an extra head. -/
theorem perm_cancel_cons {r : α} {X J J' : List α}
    (h : List.Perm (r :: (X ++ J')) (X ++ J)) : List.Perm (r :: J') J := by
  have h1 : List.Perm (X ++ (r :: J')) (X ++ J) :=
    (List.perm_append_comm_assoc [r] X J').symm.trans h
  exact (List.perm_append_left_iff X).mp h1

/-- Move a fresh head past a shared middle segment of a permutation. -/
theorem perm_cons_swap_append (r : α) (F : List α) {J J' : List α}
    (h : List.Perm (r :: J') J) : List.Perm (r :: (F ++ J')) (F ++ J) :=
  (List.perm_append_comm_assoc [r] F J').trans (h.append_left F)

/-- Exhaustive description of `pushSource st i`: either it is the identity
(unknown or exhausted source), or it moves a row into the frontier (from the
staged remainder or a freshly pulled batch), or it records blocking (not-ready
response or empty batch), or it marks the source exhausted (end-of-stream or
script over). -/
theorem pushSource_cases (st : MergeState ρ) (i : Nat) :
    (pushSource st i = st ∧ (st.srcs[i]? = none ∨ ∃ s, st.srcs[i]? = some s ∧ s.exhausted = true))
    ∨ (∃ s r rest', st.srcs[i]? = some s ∧ s.exhausted = false ∧
        ((s.staged = r :: rest' ∧ pushSource st i =
            { st with srcs := st.srcs.set i { s with staged := rest' },
                      frontier := (i, r) :: st.frontier })
         ∨ (∃ tl, s.staged = [] ∧ s.script = SourceResp.batch (r :: rest') :: tl ∧
            pushSource st i =
              { st with srcs := st.srcs.set i { s with script := tl, staged := rest' },
                        frontier := (i, r) :: st.frontier })))
    ∨ (∃ s tl, st.srcs[i]? = some s ∧ s.exhausted = false ∧ s.staged = [] ∧
        (s.script = SourceResp.batch [] :: tl ∨ s.script = SourceResp.blocked :: tl) ∧
        pushSource st i = { st with srcs := st.srcs.set i { s with script := tl },
                                    blocked := true })
    ∨ (∃ s, st.srcs[i]? = some s ∧ s.exhausted = false ∧ s.staged = [] ∧
        ((∃ tl, s.script = SourceResp.eos :: tl ∧ pushSource st i =
            { st with srcs := st.srcs.set i { s with script := tl, exhausted := true } })
         ∨ (s.script = [] ∧ pushSource st i =
            { st with srcs := st.srcs.set i { s with exhausted := true } }))) := by
  cases hsi : st.srcs[i]? with
  | none => exact Or.inl ⟨by simp [pushSource, hsi], Or.inl rfl⟩
  | some s =>
    by_cases hex : s.exhausted
    · exact Or.inl ⟨by simp [pushSource, hsi, hex], Or.inr ⟨s, rfl, hex⟩⟩
    · cases hstg : s.staged with
      | cons r rest' =>
        refine Or.inr (Or.inl ⟨s, r, rest', rfl, by simp [hex], Or.inl ⟨hstg, ?_⟩⟩)
        simp [pushSource, hsi, hex, hstg]
      | nil =>
        cases hsc : s.script with
        | nil =>
          refine Or.inr (Or.inr (Or.inr ⟨s, rfl, by simp [hex], hstg, Or.inr ⟨hsc, ?_⟩⟩))
          simp [pushSource, hsi, hex, hstg, hsc]
        | cons hd tl =>
          cases hd with
          | batch rs =>
            cases rs with
            | nil =>
              refine Or.inr (Or.inr (Or.inl ⟨s, tl, rfl, by simp [hex], hstg, Or.inl hsc, ?_⟩))
              simp [pushSource, hsi, hex, hstg, hsc]
            | cons r rest' =>
              refine Or.inr (Or.inl ⟨s, r, rest', rfl, by simp [hex],
                Or.inr ⟨tl, hstg, hsc, ?_⟩⟩)
              simp [pushSource, hsi, hex, hstg, hsc]
          | blocked =>
            refine Or.inr (Or.inr (Or.inl ⟨s, tl, rfl, by simp [hex], hstg, Or.inr hsc, ?_⟩))
            simp [pushSource, hsi, hex, hstg, hsc]
          | eos =>
            refine Or.inr (Or.inr (Or.inr ⟨s, rfl, by simp [hex], hstg,
              Or.inl ⟨tl, hsc, ?_⟩⟩))
            simp [pushSource, hsi, hex, hstg, hsc]

/-- `pushSource` does not change the number of attached sources. -/
theorem pushSource_srcs_length (st : MergeState ρ) (i : Nat) :
    ((pushSource st i).srcs).length = st.srcs.length := by
  rcases pushSource_cases st i with ⟨heq, _⟩ |
    ⟨s, r, rest', hsi, hex, ⟨hstg, heq⟩ | ⟨tl, hstg, hsc, heq⟩⟩ |
    ⟨s, tl, hsi, hex, hstg, hsc, heq⟩ |
    ⟨s, hsi, hex, hstg, ⟨tl, hsc, heq⟩ | ⟨hsc, heq⟩⟩ <;> simp [heq]

/-- `pushSource st i` leaves every other source's state untouched. -/
theorem pushSource_srcs_other (st : MergeState ρ) (i j : Nat) (hne : i ≠ j) :
    (pushSource st i).srcs[j]? = st.srcs[j]? := by
  rcases pushSource_cases st i with ⟨heq, _⟩ |
    ⟨s, r, rest', hsi, hex, ⟨hstg, heq⟩ | ⟨tl, hstg, hsc, heq⟩⟩ |
    ⟨s, tl, hsi, hex, hstg, hsc, heq⟩ |
    ⟨s, hsi, hex, hstg, ⟨tl, hsc, heq⟩ | ⟨hsc, heq⟩⟩ <;>
    simp [heq, List.getElem?_set_ne hne]

/-- `pushSource st i` either keeps the frontier or pushes one entry for `i`. -/
theorem pushSource_frontier_shape (st : MergeState ρ) (i : Nat) :
    (pushSource st i).frontier = st.frontier ∨
    ∃ r, (pushSource st i).frontier = (i, r) :: st.frontier := by
  rcases pushSource_cases st i with ⟨heq, _⟩ |
    ⟨s, r, rest', hsi, hex, ⟨hstg, heq⟩ | ⟨tl, hstg, hsc, heq⟩⟩ |
    ⟨s, tl, hsi, hex, hstg, hsc, heq⟩ |
    ⟨s, hsi, hex, hstg, ⟨tl, hsc, heq⟩ | ⟨hsc, heq⟩⟩
  · exact Or.inl (by rw [heq])
  · exact Or.inr ⟨r, by rw [heq]⟩
  · exact Or.inr ⟨r, by rw [heq]⟩
  · exact Or.inl (by rw [heq])
  · exact Or.inl (by rw [heq])
  · exact Or.inl (by rw [heq])

/-- `pushSource` never removes pending rows and never invents any: the rows
inside the engine form the same multiset before and after. -/
theorem pushSource_pendingRows_perm (st : MergeState ρ) (i : Nat) :
    List.Perm (pendingRows (pushSource st i)) (pendingRows st) := by
  rcases pushSource_cases st i with ⟨heq, _⟩ |
    ⟨s, r, rest', hsi, hex, ⟨hstg, heq⟩ | ⟨tl, hstg, hsc, heq⟩⟩ |
    ⟨s, tl, hsi, hex, hstg, hsc, heq⟩ |
    ⟨s, hsi, hex, hstg, ⟨tl, hsc, heq⟩ | ⟨hsc, heq⟩⟩
  · rw [heq]
  · have H := perm_flatten_map_set hsi { s with staged := rest' } pendingOf
    simp only [pendingOf, hex, hstg, Bool.false_eq_true, if_false, List.cons_append,
      List.append_assoc] at H
    rw [heq]
    simp only [pendingRows, List.map_cons, List.cons_append, List.append_assoc, hex]
    exact perm_cons_swap_append _ _ (perm_cancel_cons (perm_cancel_cons H))
  · have H := perm_flatten_map_set hsi { s with script := tl, staged := rest' } pendingOf
    simp only [pendingOf, hex, hstg, hsc, scriptRows, Bool.false_eq_true, if_false,
      List.nil_append, List.cons_append, List.append_assoc] at H
    rw [heq]
    simp only [pendingRows, List.map_cons, List.cons_append, List.append_assoc, hex]
    exact perm_cons_swap_append _ _ (perm_cancel_cons (perm_cancel_cons H))
  · have H := perm_flatten_map_set hsi { s with script := tl } pendingOf
    rcases hsc with hsc | hsc <;>
    · simp only [pendingOf, hex, hstg, hsc, scriptRows, Bool.false_eq_true, if_false,
        List.nil_append] at H
      rw [heq]
      simp only [pendingRows, hex, hstg]
      exact ((List.perm_append_left_iff _).mp H).append_left _
  · have H := perm_flatten_map_set hsi { s with script := tl, exhausted := true } pendingOf
    simp only [pendingOf, hex, hstg, hsc, scriptRows, Bool.false_eq_true, if_false,
      if_true, List.nil_append, List.append_nil] at H
    rw [heq]
    simp only [pendingRows, hex, hstg]
    exact H.append_left _
  · have H := perm_flatten_map_set hsi { s with exhausted := true } pendingOf
    simp only [pendingOf, hex, hstg, hsc, scriptRows, Bool.false_eq_true, if_false,
      if_true, List.nil_append, List.append_nil] at H
    rw [heq]
    simp only [pendingRows, hex, hstg, hsc]
    exact H.append_left _

/-- Membership characterization of `hasCandidate`. -/
theorem hasCandidate_iff (st : MergeState ρ) (i : Nat) :
    hasCandidate st i = true ↔ ∃ r, (i, r) ∈ st.frontier := by
  simp only [hasCandidate, List.any_eq_true, beq_iff_eq]
  constructor
  · rintro ⟨e, he, rfl⟩
    exact ⟨e.2, he⟩
  · rintro ⟨r, hr⟩
    exact ⟨(i, r), hr, rfl⟩

/-- A source without a candidate has no frontier entry carrying its index. -/
theorem hasCandidate_false_iff (st : MergeState ρ) (i : Nat) :
    hasCandidate st i = false ↔ ∀ e ∈ st.frontier, e.1 ≠ i := by
  simp only [hasCandidate, List.any_eq_false, beq_iff_eq]

/-- Existing candidates survive `pushSource`. -/
theorem hasCandidate_mono_pushSource (st : MergeState ρ) (i j : Nat)
    (h : hasCandidate st j = true) : hasCandidate (pushSource st i) j = true := by
  rw [hasCandidate_iff] at h ⊢
  obtain ⟨r, hr⟩ := h
  rcases pushSource_frontier_shape st i with hfr | ⟨r', hfr⟩
  · exact ⟨r, by rw [hfr]; exact hr⟩
  · exact ⟨r, by rw [hfr]; exact List.mem_cons_of_mem _ hr⟩

/-- The well-formedness of the frontier: its entries carry pairwise distinct
source indices, each index refers to an attached source, and each referenced
source is still active. -/
structure FrontierWF (st : MergeState ρ) : Prop where
  nodup : List.Nodup (st.frontier.map Prod.fst)
  range : ∀ e ∈ st.frontier, e.1 < st.srcs.length
  active : ∀ e ∈ st.frontier, ∀ s, st.srcs[e.1]? = some s → s.exhausted = false

/-- Updating a source that has no frontier entry keeps the frontier well
formed. -/
theorem FrontierWF.set_other {st : MergeState ρ} {i : Nat} (hwf : FrontierWF st)
    (hnotmem : i ∉ st.frontier.map Prod.fst) (s' : SourceState ρ) (b : Bool) :
    FrontierWF ⟨st.srcs.set i s', st.frontier, b⟩ := by
  refine ⟨hwf.nodup, ?_, ?_⟩
  · intro e he
    simpa using hwf.range e he
  · intro e he t ht
    by_cases hei : e.1 = i
    · exact absurd (hei ▸ List.mem_map_of_mem Prod.fst he) hnotmem
    · have ht' : st.srcs[e.1]? = some t := by
        rw [List.getElem?_set_ne (fun h => hei h.symm)] at ht
        exact ht
      exact hwf.active e he t ht'

/-- Pushing a fresh entry for an active source keeps the frontier well
formed. -/
theorem FrontierWF.push_entry {st : MergeState ρ} {i : Nat} {s : SourceState ρ}
    (hwf : FrontierWF st) (hnotmem : i ∉ st.frontier.map Prod.fst)
    (hsi : st.srcs[i]? = some s) (s' : SourceState ρ) (hex : s'.exhausted = false)
    (r : ρ) (b : Bool) :
    FrontierWF ⟨st.srcs.set i s', (i, r) :: st.frontier, b⟩ := by
  have hlen : i < st.srcs.length := (List.getElem?_eq_some_iff.mp hsi).1
  refine ⟨?_, ?_, ?_⟩
  · simp only [List.map_cons, List.nodup_cons]
    exact ⟨hnotmem, hwf.nodup⟩
  · intro e he
    rcases List.mem_cons.mp he with rfl | he
    · simpa using hlen
    · simpa using hwf.range e he
  · intro e he t ht
    rcases List.mem_cons.mp he with rfl | he
    · have ht' : (st.srcs.set i s')[i]? = some t := by simpa using ht
      rw [List.getElem?_set_self hlen] at ht'
      cases ht'
      exact hex
    · by_cases hei : e.1 = i
      · exact absurd (hei ▸ List.mem_map_of_mem Prod.fst he) hnotmem
      · have ht' : st.srcs[e.1]? = some t := by
          rw [List.getElem?_set_ne (fun h => hei h.symm)] at ht
          exact ht
        exact hwf.active e he t ht'

/-- `pushSource` preserves frontier well-formedness when the pushed source has
no candidate in the frontier yet (the only way the engine ever calls it). -/
theorem FrontierWF.pushSource {st : MergeState ρ} {i : Nat}
    (hwf : FrontierWF st) (hnc : hasCandidate st i = false) :
    FrontierWF (pushSource st i) := by
  have hnotmem : i ∉ st.frontier.map Prod.fst := by
    rw [hasCandidate_false_iff] at hnc
    intro hmem
    obtain ⟨e, he, hei⟩ := List.mem_map.mp hmem
    exact hnc e he hei
  rcases pushSource_cases st i with ⟨heq, _⟩ |
    ⟨s, r, rest', hsi, hex, ⟨hstg, heq⟩ | ⟨tl, hstg, hsc, heq⟩⟩ |
    ⟨s, tl, hsi, hex, hstg, hsc, heq⟩ |
    ⟨s, hsi, hex, hstg, ⟨tl, hsc, heq⟩ | ⟨hsc, heq⟩⟩
  · rw [heq]; exact hwf
  · rw [heq]; exact hwf.push_entry hnotmem hsi { s with staged := rest' } hex r st.blocked
  · rw [heq]
    exact hwf.push_entry hnotmem hsi { s with script := tl, staged := rest' } hex r st.blocked
  · rw [heq]; exact hwf.set_other hnotmem _ _
  · rw [heq]; exact hwf.set_other hnotmem _ _
  · rw [heq]; exact hwf.set_other hnotmem _ _

/-- `popMin` returns nothing exactly on the empty frontier. -/
theorem popMin_eq_none_iff (gt : ρ → ρ → Bool) (l : List (Nat × ρ)) :
    popMin gt l = none ↔ l = [] := by
  cases l with
  | nil => simp [popMin]
  | cons x xs =>
    simp only [popMin]
    cases h : popMin gt xs with
    | none => simp
    | some p =>
      obtain ⟨m, rest⟩ := p
      cases hgt : gt x.2 m.2 <;> simp [hgt]

/-- Popping the top rearranges the frontier: nothing is lost or created. -/
theorem popMin_perm (gt : ρ → ρ → Bool) {l rest : List (Nat × ρ)} {m : Nat × ρ}
    (h : popMin gt l = some (m, rest)) : List.Perm (m :: rest) l := by
  induction l generalizing m rest with
  | nil => simp [popMin] at h
  | cons x xs ih =>
    simp only [popMin] at h
    cases h2 : popMin gt xs with
    | none =>
      simp only [h2] at h
      obtain ⟨rfl, rfl⟩ : x = m ∧ xs = rest := by simpa using h
      exact List.Perm.refl _
    | some p =>
      obtain ⟨m', rest'⟩ := p
      simp only [h2] at h
      cases hgt : gt x.2 m'.2 with
      | true =>
        simp only [hgt, if_true] at h
        obtain ⟨rfl, rfl⟩ : m' = m ∧ x :: rest' = rest := by simpa using h
        exact (List.Perm.swap x m' rest').trans ((ih h2).cons x)
      | false =>
        simp only [hgt, Bool.false_eq_true, if_false] at h
        obtain ⟨rfl, rfl⟩ : x = m ∧ xs = rest := by simpa using h
        exact List.Perm.refl _

/-- The popped entry is one of the frontier's entries. -/
theorem popMin_mem (gt : ρ → ρ → Bool) {l rest : List (Nat × ρ)} {m : Nat × ρ}
    (h : popMin gt l = some (m, rest)) : m ∈ l :=
  (popMin_perm gt h).subset (List.mem_cons_self _ _)

/-- For an asymmetric comparator with a transitive complement, the popped
entry is ranked after no remaining entry — it is a global minimum, exactly
what `std::priority_queue::top` yields under the greater-than Comparator. -/
theorem popMin_min (gt : ρ → ρ → Bool) (hasym : GtAsymm gt) (htrans : LeTrans gt)
    {l rest : List (Nat × ρ)} {m : Nat × ρ}
    (h : popMin gt l = some (m, rest)) : ∀ e ∈ rest, gt m.2 e.2 = false := by
  induction l generalizing m rest with
  | nil => simp [popMin] at h
  | cons x xs ih =>
    simp only [popMin] at h
    cases h2 : popMin gt xs with
    | none =>
      simp only [h2] at h
      obtain ⟨rfl, rfl⟩ : x = m ∧ xs = rest := by simpa using h
      have hnil : xs = [] := (popMin_eq_none_iff gt xs).mp h2
      subst hnil
      intro e he
      simp at he
    | some p =>
      obtain ⟨m', rest'⟩ := p
      simp only [h2] at h
      cases hgt : gt x.2 m'.2 with
      | true =>
        simp only [hgt, if_true] at h
        obtain ⟨rfl, rfl⟩ : m' = m ∧ x :: rest' = rest := by simpa using h
        intro e he
        rcases List.mem_cons.mp he with rfl | he
        · exact hasym _ _ hgt
        · exact ih h2 e he
      | false =>
        simp only [hgt, Bool.false_eq_true, if_false] at h
        obtain ⟨rfl, rfl⟩ : x = m ∧ xs = rest := by simpa using h
        intro e he
        have he' : e ∈ m' :: rest' := (popMin_perm gt h2).mem_iff.mpr he
        rcases List.mem_cons.mp he' with rfl | he'
        · exact hgt
        · exact htrans _ _ _ hgt (ih h2 e he')

/-- Source `i` is in a legitimate state for extraction to proceed: exhausted
or visible in the frontier. -/
def covOrExh (st : MergeState ρ) (i : Nat) : Prop :=
  ∀ s, st.srcs[i]? = some s → s.exhausted = true ∨ hasCandidate st i = true

/-- `pushSource` never destroys the covered-or-exhausted status of any
source. -/
theorem covOrExh_mono_pushSource {st : MergeState ρ} {j : Nat} (i : Nat)
    (h : covOrExh st j) : covOrExh (pushSource st i) j := by
  intro t ht
  by_cases hij : i = j
  · subst hij
    rcases pushSource_cases st i with ⟨heq, hside⟩ |
      ⟨s, r, rest', hsi, hex, ⟨hstg, heq⟩ | ⟨tl, hstg, hsc, heq⟩⟩ |
      ⟨s, tl, hsi, hex, hstg, hsc, heq⟩ |
      ⟨s, hsi, hex, hstg, ⟨tl, hsc, heq⟩ | ⟨hsc, heq⟩⟩
    · rw [heq] at ht ⊢
      exact h t ht
    · refine Or.inr ((hasCandidate_iff _ _).mpr ⟨r, ?_⟩)
      rw [heq]
      exact List.mem_cons_self _ _
    · refine Or.inr ((hasCandidate_iff _ _).mpr ⟨r, ?_⟩)
      rw [heq]
      exact List.mem_cons_self _ _
    · rcases h s hsi with hs | hs
      · rw [hs] at hex; cases hex
      · refine Or.inr ((hasCandidate_iff _ _).mpr ?_)
        obtain ⟨r, hr⟩ := (hasCandidate_iff st i).mp hs
        refine ⟨r, ?_⟩
        rw [heq]
        exact hr
    · have hlen : i < st.srcs.length := (List.getElem?_eq_some_iff.mp hsi).1
      rw [heq] at ht
      have : t = { s with script := tl, exhausted := true } := by
        rw [List.getElem?_set_self (by simpa using hlen)] at ht
        exact ((Option.some.injEq _ _).mp ht).symm
      rw [this]
      exact Or.inl rfl
    · have hlen : i < st.srcs.length := (List.getElem?_eq_some_iff.mp hsi).1
      rw [heq] at ht
      have : t = { s with exhausted := true } := by
        rw [List.getElem?_set_self (by simpa using hlen)] at ht
        exact ((Option.some.injEq _ _).mp ht).symm
      rw [this]
      exact Or.inl rfl
  · have ht' : st.srcs[j]? = some t := by
      rw [pushSource_srcs_other st i j hij] at ht
      exact ht
    rcases h t ht' with hs | hs
    · exact Or.inl hs
    · exact Or.inr (hasCandidate_mono_pushSource st i j hs)

/-- When `pushSource` does not block, the pushed source ends covered or
exhausted. -/
theorem pushSource_covOrExh_self (st : MergeState ρ) (i : Nat)
    (hb : (pushSource st i).blocked = false) : covOrExh (pushSource st i) i := by
  intro t ht
  rcases pushSource_cases st i with ⟨heq, hside⟩ |
    ⟨s, r, rest', hsi, hex, ⟨hstg, heq⟩ | ⟨tl, hstg, hsc, heq⟩⟩ |
    ⟨s, tl, hsi, hex, hstg, hsc, heq⟩ |
    ⟨s, hsi, hex, hstg, ⟨tl, hsc, heq⟩ | ⟨hsc, heq⟩⟩
  · rw [heq] at ht
    rcases hside with hnone | ⟨s, hsi, hex⟩
    · rw [hnone] at ht; cases ht
    · rw [hsi] at ht
      cases ht
      rw [heq]
      exact Or.inl hex
  · refine Or.inr ((hasCandidate_iff _ _).mpr ⟨r, ?_⟩)
    rw [heq]
    exact List.mem_cons_self _ _
  · refine Or.inr ((hasCandidate_iff _ _).mpr ⟨r, ?_⟩)
    rw [heq]
    exact List.mem_cons_self _ _
  · rw [heq] at hb; cases hb
  · have hlen : i < st.srcs.length := (List.getElem?_eq_some_iff.mp hsi).1
    rw [heq] at ht
    have : t = { s with script := tl, exhausted := true } := by
      rw [List.getElem?_set_self (by simpa using hlen)] at ht
      exact ((Option.some.injEq _ _).mp ht).symm
    rw [this]
    exact Or.inl rfl
  · have hlen : i < st.srcs.length := (List.getElem?_eq_some_iff.mp hsi).1
    rw [heq] at ht
    have : t = { s with exhausted := true } := by
      rw [List.getElem?_set_self (by simpa using hlen)] at ht
      exact ((Option.some.injEq _ _).mp ht).symm
    rw [this]
    exact Or.inl rfl

/-- The ensure pass does not change the number of attached sources. -/
theorem ensureLoop_srcs_length (st : MergeState ρ) (l : List Nat) :
    ((ensureLoop st l).srcs).length = st.srcs.length := by
  induction l generalizing st with
  | nil => rfl
  | cons i rest ih =>
    simp only [ensureLoop]
    cases hsi : st.srcs[i]? with
    | none => exact ih st
    | some s =>
      cases hskip : (s.exhausted || hasCandidate st i) with
      | true => simp only [hskip, if_true]; exact ih st
      | false =>
        simp only [hskip, Bool.false_eq_true, if_false]
        cases hb : (pushSource st i).blocked with
        | true =>
          simp only [hb, if_true]
          exact pushSource_srcs_length st i
        | false =>
          simp only [hb, Bool.false_eq_true, if_false]
          exact (ih (pushSource st i)).trans (pushSource_srcs_length st i)

/-- The ensure pass moves rows around but conserves them. -/
theorem ensureLoop_pendingRows_perm (st : MergeState ρ) (l : List Nat) :
    List.Perm (pendingRows (ensureLoop st l)) (pendingRows st) := by
  induction l generalizing st with
  | nil => exact List.Perm.refl _
  | cons i rest ih =>
    simp only [ensureLoop]
    cases hsi : st.srcs[i]? with
    | none => exact ih st
    | some s =>
      cases hskip : (s.exhausted || hasCandidate st i) with
      | true => simp only [hskip, if_true]; exact ih st
      | false =>
        simp only [hskip, Bool.false_eq_true, if_false]
        cases hb : (pushSource st i).blocked with
        | true =>
          simp only [hb, if_true]
          exact pushSource_pendingRows_perm st i
        | false =>
          simp only [hb, Bool.false_eq_true, if_false]
          exact (ih (pushSource st i)).trans (pushSource_pendingRows_perm st i)

/-- The ensure pass keeps the frontier well formed. -/
theorem frontierWF_ensureLoop {st : MergeState ρ} (hwf : FrontierWF st) (l : List Nat) :
    FrontierWF (ensureLoop st l) := by
  induction l generalizing st with
  | nil => exact hwf
  | cons i rest ih =>
    simp only [ensureLoop]
    cases hsi : st.srcs[i]? with
    | none => exact ih hwf
    | some s =>
      cases hskip : (s.exhausted || hasCandidate st i) with
      | true => simp only [hskip, if_true]; exact ih hwf
      | false =>
        simp only [hskip, Bool.false_eq_true, if_false]
        have hnc : hasCandidate st i = false := (Bool.or_eq_false_iff.mp hskip).2
        cases hb : (pushSource st i).blocked with
        | true =>
          simp only [hb, if_true]
          exact hwf.pushSource hnc
        | false =>
          simp only [hb, Bool.false_eq_true, if_false]
          exact ih (hwf.pushSource hnc)

/-- If the ensure pass completes without blocking, every source it visited is
covered or exhausted, and previously legitimate sources stay so. -/
theorem ensureLoop_cov (st : MergeState ρ) (l : List Nat)
    (hres : (ensureLoop st l).blocked = false) :
    (∀ i ∈ l, covOrExh (ensureLoop st l) i) ∧
    (∀ j, covOrExh st j → covOrExh (ensureLoop st l) j) := by
  induction l generalizing st with
  | nil => exact ⟨by simp, fun j h => h⟩
  | cons i rest ih =>
    simp only [ensureLoop] at hres ⊢
    cases hsi : st.srcs[i]? with
    | none =>
      rw [hsi] at hres
      obtain ⟨h1, h2⟩ := ih st hres
      refine ⟨?_, h2⟩
      intro i' hi'
      rcases List.mem_cons.mp hi' with rfl | hi'
      · exact h2 i' (fun t ht => by rw [hsi] at ht; cases ht)
      · exact h1 i' hi'
    | some s =>
      simp only [hsi] at hres ⊢
      cases hskip : (s.exhausted || hasCandidate st i) with
      | true =>
        simp only [hskip, if_true] at hres ⊢
        obtain ⟨h1, h2⟩ := ih st hres
        refine ⟨?_, h2⟩
        intro i' hi'
        rcases List.mem_cons.mp hi' with rfl | hi'
        · refine h2 i' (fun t ht => ?_)
          have hts : t = s := by
            rw [hsi] at ht
            exact ((Option.some.injEq _ _).mp ht).symm
          subst hts
          rcases Bool.or_eq_true_iff.mp hskip with h | h
          · exact Or.inl h
          · exact Or.inr h
        · exact h1 i' hi'
      | false =>
        simp only [hskip, Bool.false_eq_true, if_false] at hres ⊢
        cases hb : (pushSource st i).blocked with
        | true =>
          simp only [hb, if_true] at hres ⊢
          cases hres
        | false =>
          simp only [hb, Bool.false_eq_true, if_false] at hres ⊢
          obtain ⟨h1, h2⟩ := ih (pushSource st i) hres
          refine ⟨?_, fun j hj => h2 j (covOrExh_mono_pushSource i hj)⟩
          intro i' hi'
          rcases List.mem_cons.mp hi' with rfl | hi'
          · exact h2 i' (pushSource_covOrExh_self st i' hb)
          · exact h1 i' hi'

/-- The ensure entry point conserves the rows inside the engine. -/
theorem ensure_pendingRows_perm (st : MergeState ρ) :
    List.Perm (pendingRows (ensureSourcesReady st)) (pendingRows st) :=
  ensureLoop_pendingRows_perm _ _

/-- The ensure entry point does not change the number of attached sources. -/
theorem ensure_srcs_length (st : MergeState ρ) :
    ((ensureSourcesReady st).srcs).length = st.srcs.length :=
  ensureLoop_srcs_length _ _

/-- Changing only the blocking flag does not disturb the frontier. -/
theorem frontierWF_setBlocked {st : MergeState ρ} (hwf : FrontierWF st) (b : Bool) :
    FrontierWF ⟨st.srcs, st.frontier, b⟩ :=
  ⟨hwf.nodup, hwf.range, hwf.active⟩

/-- The ensure entry point keeps the frontier well formed. -/
theorem frontierWF_ensure {st : MergeState ρ} (hwf : FrontierWF st) :
    FrontierWF (ensureSourcesReady st) := by
  unfold ensureSourcesReady
  exact frontierWF_ensureLoop (frontierWF_setBlocked hwf false) _

/-- If the ensure entry point does not block, every attached source is covered
or exhausted (spec section 4.2: the frontier is ready). -/
theorem ensure_cov (st : MergeState ρ)
    (hres : (ensureSourcesReady st).blocked = false) :
    ∀ i, covOrExh (ensureSourcesReady st) i := by
  intro i
  by_cases hlen : i < st.srcs.length
  · exact (ensureLoop_cov { st with blocked := false } (List.range st.srcs.length) hres).1
      i (List.mem_range.mpr hlen)
  · intro t ht
    exfalso
    have hlen2 : i < ((ensureSourcesReady st).srcs).length :=
      (List.getElem?_eq_some_iff.mp ht).1
    rw [ensure_srcs_length] at hlen2
    exact hlen hlen2

/-- Removing the popped entry keeps every other source covered. -/
theorem covOrExh_pop {gt : ρ → ρ → Bool} {st : MergeState ρ} {m : Nat × ρ}
    {rest : List (Nat × ρ)} (hpop : popMin gt st.frontier = some (m, rest))
    (hcov : ∀ i, covOrExh st i) (b : Bool) (j : Nat) (hj : j ≠ m.1) :
    covOrExh ⟨st.srcs, rest, b⟩ j := by
  intro t ht
  rcases hcov j t ht with h | h
  · exact Or.inl h
  · obtain ⟨r, hr⟩ := (hasCandidate_iff st j).mp h
    have hmem : (j, r) ∈ m :: rest := (popMin_perm gt hpop).mem_iff.mpr hr
    rcases List.mem_cons.mp hmem with heq | hmem
    · exact absurd (congrArg Prod.fst heq) hj
    · exact Or.inr ((hasCandidate_iff _ _).mpr ⟨r, hmem⟩)

/-- Removing the popped entry keeps the frontier well formed, and the popped
source loses its (unique) candidate. -/
theorem frontierWF_pop {gt : ρ → ρ → Bool} {st : MergeState ρ} {m : Nat × ρ}
    {rest : List (Nat × ρ)} (hwf : FrontierWF st)
    (hpop : popMin gt st.frontier = some (m, rest)) (b : Bool) :
    FrontierWF ⟨st.srcs, rest, b⟩ ∧
      hasCandidate ⟨st.srcs, rest, b⟩ m.1 = false := by
  have hperm := popMin_perm gt hpop
  have hsub : rest ⊆ st.frontier := fun e he => hperm.subset (List.mem_cons_of_mem _ he)
  have hnodup : List.Nodup (List.map Prod.fst (m :: rest)) :=
    ((hperm.map Prod.fst).nodup_iff).mpr hwf.nodup
  refine ⟨⟨(List.nodup_cons.mp hnodup).2,
    fun e he => hwf.range e (hsub he),
    fun e he => hwf.active e (hsub he)⟩, ?_⟩
  rw [hasCandidate_false_iff]
  intro e he hei
  exact (List.nodup_cons.mp hnodup).1 (hei ▸ List.mem_map_of_mem Prod.fst he)

/-- The extraction loop conserves rows: whatever it emits leaves the pending
multiset, and nothing else moves. -/
theorem extractLoop_perm (gt : ρ → ρ → Bool) (size : ρ → Nat) (budget : Nat) :
    ∀ (fuel : Nat) (st : MergeState ρ) (out : List ρ) (bytes : Nat),
    List.Perm ((extractLoop gt size budget fuel st out bytes).2 ++
      pendingRows (extractLoop gt size budget fuel st out bytes).1)
      (out ++ pendingRows st) := by
  intro fuel
  induction fuel with
  | zero => intro st out bytes; exact List.Perm.refl _
  | succ fuel ih =>
    intro st out bytes
    simp only [extractLoop]
    by_cases hlt : bytes < budget
    · simp only [hlt, if_true]
      cases hpop : popMin gt st.frontier with
      | none => exact List.Perm.refl _
      | some p =>
        obtain ⟨m, rest⟩ := p
        have hfr : List.Perm (pendingRows st)
            (m.2 :: pendingRows ⟨st.srcs, rest, st.blocked⟩) := by
          have h1 : List.Perm (List.map Prod.snd (m :: rest))
              (List.map Prod.snd st.frontier) := (popMin_perm gt hpop).map Prod.snd
          have h2 := h1.symm.append_right ((st.srcs.map pendingOf).flatten)
          simpa [pendingRows] using h2
        have hkey : List.Perm
            ([m.2] ++ pendingRows (pushSource ⟨st.srcs, rest, st.blocked⟩ m.1))
            (pendingRows st) :=
          ((pushSource_pendingRows_perm ⟨st.srcs, rest, st.blocked⟩ m.1).cons m.2).trans
            hfr.symm
        by_cases hb : (pushSource ⟨st.srcs, rest, st.blocked⟩ m.1).blocked
        · simp only [hb, if_true]
          rw [List.append_assoc]
          exact hkey.append_left out
        · simp only [hb, if_false]
          refine (ih _ _ _).trans ?_
          rw [List.append_assoc]
          exact hkey.append_left out
    · simp only [hlt, if_false]
      exact List.Perm.refl _

/-- The extraction loop keeps the frontier well formed, and if it stops
without blocking, every source is still covered or exhausted. -/
theorem extractLoop_wf_cov (gt : ρ → ρ → Bool) (size : ρ → Nat) (budget : Nat) :
    ∀ (fuel : Nat) (st : MergeState ρ) (out : List ρ) (bytes : Nat),
    FrontierWF st → (∀ i, covOrExh st i) →
    FrontierWF (extractLoop gt size budget fuel st out bytes).1 ∧
    ((extractLoop gt size budget fuel st out bytes).1.blocked = false →
      ∀ i, covOrExh (extractLoop gt size budget fuel st out bytes).1 i) := by
  intro fuel
  induction fuel with
  | zero => intro st out bytes hwf hcov; exact ⟨hwf, fun _ => hcov⟩
  | succ fuel ih =>
    intro st out bytes hwf hcov
    simp only [extractLoop]
    by_cases hlt : bytes < budget
    · simp only [hlt, if_true]
      cases hpop : popMin gt st.frontier with
      | none => exact ⟨hwf, fun _ => hcov⟩
      | some p =>
        obtain ⟨m, rest⟩ := p
        obtain ⟨hwfPop, hncPop⟩ := frontierWF_pop hwf hpop st.blocked
        have hwf2 : FrontierWF (pushSource ⟨st.srcs, rest, st.blocked⟩ m.1) :=
          hwfPop.pushSource hncPop
        by_cases hb : (pushSource ⟨st.srcs, rest, st.blocked⟩ m.1).blocked
        · simp only [hb, if_true]
          refine ⟨hwf2, fun hbf => ?_⟩
          simp at hbf
        · simp only [hb, if_false]
          refine ih _ _ _ hwf2 ?_
          intro j
          by_cases hj : j = m.1
          · subst hj
            exact pushSource_covOrExh_self _ _ (by simpa using hb)
          · exact covOrExh_mono_pushSource m.1 (covOrExh_pop hpop hcov st.blocked j hj)
    · simp only [hlt, if_false]
      exact ⟨hwf, fun _ => hcov⟩

/-- The extraction loop does not change the number of attached sources. -/
theorem extractLoop_srcs_length (gt : ρ → ρ → Bool) (size : ρ → Nat) (budget : Nat) :
    ∀ (fuel : Nat) (st : MergeState ρ) (out : List ρ) (bytes : Nat),
    ((extractLoop gt size budget fuel st out bytes).1.srcs).length = st.srcs.length := by
  intro fuel
  induction fuel with
  | zero => intro st out bytes; rfl
  | succ fuel ih =>
    intro st out bytes
    simp only [extractLoop]
    by_cases hlt : bytes < budget
    · simp only [hlt, if_true]
      cases hpop : popMin gt st.frontier with
      | none => rfl
      | some p =>
        obtain ⟨m, rest⟩ := p
        by_cases hb : (pushSource ⟨st.srcs, rest, st.blocked⟩ m.1).blocked
        · simp only [hb, if_true]
          exact pushSource_srcs_length _ _
        · simp only [hb, if_false]
          exact (ih _ _ _).trans (pushSource_srcs_length _ _)
    · simp only [hlt, if_false]

/-- One produce-output call conserves rows: the emitted batch plus what stays
inside the engine is exactly what was inside before. -/
theorem getOutput_perm (gt : ρ → ρ → Bool) (size : ρ → Nat) (budget : Nat)
    (st : MergeState ρ) :
    List.Perm ((getOutput gt size budget st).2 ++
      pendingRows (getOutput gt size budget st).1) (pendingRows st) := by
  simp only [getOutput]
  by_cases hb : (ensureSourcesReady st).blocked
  · simp only [hb, if_true]
    simpa using ensure_pendingRows_perm st
  · simp only [hb, if_false]
    exact (extractLoop_perm gt size budget _ _ _ _).trans
      (by simpa using ensure_pendingRows_perm st)

/-- One produce-output call keeps the frontier well formed, and if it returns
unblocked every source is covered or exhausted. -/
theorem getOutput_wf_cov (gt : ρ → ρ → Bool) (size : ρ → Nat) (budget : Nat)
    (st : MergeState ρ) (hwf : FrontierWF st) :
    FrontierWF (getOutput gt size budget st).1 ∧
    ((getOutput gt size budget st).1.blocked = false →
      ∀ i, covOrExh (getOutput gt size budget st).1 i) := by
  simp only [getOutput]
  by_cases hb : (ensureSourcesReady st).blocked
  · simp only [hb, if_true]
    refine ⟨frontierWF_ensure hwf, fun hbf => ?_⟩
    simp [hb] at hbf
  · simp only [hb, if_false]
    exact extractLoop_wf_cov gt size budget _ _ _ _ (frontierWF_ensure hwf)
      (ensure_cov st (by simpa using hb))

/-- One produce-output call does not change the number of attached sources. -/
theorem getOutput_srcs_length (gt : ρ → ρ → Bool) (size : ρ → Nat) (budget : Nat)
    (st : MergeState ρ) :
    ((getOutput gt size budget st).1.srcs).length = st.srcs.length := by
  simp only [getOutput]
  by_cases hb : (ensureSourcesReady st).blocked
  · simp only [hb, if_true]
    exact ensure_srcs_length st
  · simp only [hb, if_false]
    exact (extractLoop_srcs_length _ _ _ _ _ _ _).trans (ensure_srcs_length st)

/-- The driver loop conserves rows across any number of calls. -/
theorem runCalls_perm (gt : ρ → ρ → Bool) (size : ρ → Nat) (budget : Nat) :
    ∀ (n : Nat) (st : MergeState ρ),
    List.Perm ((runCalls gt size budget n st).2 ++
      pendingRows (runCalls gt size budget n st).1) (pendingRows st) := by
  intro n
  induction n with
  | zero => intro st; simp [runCalls]
  | succ n ih =>
    intro st
    simp only [runCalls]
    rw [List.append_assoc]
    exact ((ih (getOutput gt size budget st).1).append_left _).trans
      (getOutput_perm gt size budget st)

/-- After at least one produce-output call the frontier is well formed, and
whenever the engine is not blocked every source is covered or exhausted. -/
theorem runCalls_wf_cov (gt : ρ → ρ → Bool) (size : ρ → Nat) (budget : Nat) :
    ∀ (n : Nat) (st : MergeState ρ), FrontierWF st →
    FrontierWF (runCalls gt size budget (n + 1) st).1 ∧
    ((runCalls gt size budget (n + 1) st).1.blocked = false →
      ∀ i, covOrExh (runCalls gt size budget (n + 1) st).1 i) := by
  intro n
  induction n with
  | zero =>
    intro st hwf
    simp only [runCalls]
    exact getOutput_wf_cov gt size budget st hwf
  | succ n ih =>
    intro st hwf
    have hstep : runCalls gt size budget (n + 2) st =
        (fun r2 => ((r2.1 : MergeState ρ), (getOutput gt size budget st).2 ++ r2.2))
          (runCalls gt size budget (n + 1) (getOutput gt size budget st).1) := rfl
    rw [hstep]
    exact ih (getOutput gt size budget st).1 (getOutput_wf_cov gt size budget st hwf).1

/-- At construction the rows inside the engine are exactly the rows the
sources will supply. -/
theorem pendingRows_init (scripts : List (List (SourceResp ρ))) :
    pendingRows (initState scripts) = suppliedRows scripts := by
  have hfun : ∀ sc : List (SourceResp ρ),
      pendingOf ({ script := sc, staged := [], exhausted := false } : SourceState ρ) =
        scriptRows sc := by
    intro sc
    simp [pendingOf]
  simp only [pendingRows, initState, suppliedRows, List.map_map, List.map_nil,
    List.nil_append, Function.comp_def]
  rw [List.map_congr_left (fun sc _ => hfun sc)]

/-- Once the engine reports end-of-stream, no row is left inside it. -/
theorem pendingRows_eq_nil_of_finished {st : MergeState ρ}
    (h : isFinished st = true) : pendingRows st = [] := by
  simp only [isFinished, Bool.and_eq_true, List.isEmpty_iff, List.all_eq_true] at h
  obtain ⟨hfr, hex⟩ := h
  simp only [pendingRows, hfr, List.map_nil, List.nil_append]
  rw [List.flatten_eq_nil_iff]
  intro x hx
  obtain ⟨s, hs, rfl⟩ := List.mem_map.mp hx
  simp [pendingOf, hex s hs]

/-- Claim C4: for every execution that runs to end-of-stream, the multiset of
rows in all output batches equals the multiset union of the rows supplied by
all sources — no row is duplicated and none is lost, including executions in
which sources report blocked mid-stream and are retried. -/
theorem merge_conserves_rows (gt : ρ → ρ → Bool) (size : ρ → Nat) (budget : Nat)
    (scripts : List (List (SourceResp ρ))) (n : Nat)
    (hfin : isFinished (runCalls gt size budget n (initState scripts)).1 = true) :
    List.Perm (runCalls gt size budget n (initState scripts)).2
      (suppliedRows scripts) := by
  have h := runCalls_perm gt size budget n (initState scripts)
  rw [pendingRows_eq_nil_of_finished hfin, List.append_nil, pendingRows_init] at h
  exact h

/-- Witness for C4: two integer sources, the first reporting not-ready
mid-stream and being retried; the run reaches end-of-stream and the emitted
rows are a permutation of all supplied rows. -/
theorem merge_conserves_rows_witness :
    isFinished (runCalls (fun a b : Int => decide (a > b)) (fun _ => 1) kBatchSizeInBytes 4
      (initState [[SourceResp.batch [1], SourceResp.blocked, SourceResp.batch [3],
          SourceResp.eos], [SourceResp.batch [2, 4], SourceResp.eos]])).1 = true ∧
    List.Perm (runCalls (fun a b : Int => decide (a > b)) (fun _ => 1) kBatchSizeInBytes 4
      (initState [[SourceResp.batch [1], SourceResp.blocked, SourceResp.batch [3],
          SourceResp.eos], [SourceResp.batch [2, 4], SourceResp.eos]])).2
      (suppliedRows [[SourceResp.batch [1], SourceResp.blocked, SourceResp.batch [3],
          SourceResp.eos], [SourceResp.batch [2, 4], SourceResp.eos]]) :=
  ⟨by decide, merge_conserves_rows (fun a b : Int => decide (a > b)) (fun _ => 1)
      kBatchSizeInBytes _ 4 (by decide)⟩

/-- Claim C3: whenever any not-yet-exhausted source reports not-ready, the
engine produces no output until that source's wait signal fires, even if
every other source has rows available; no row is emitted while some active
source lacks a visible candidate: extraction only proceeds from states where
every active source is covered, and it keeps them covered. -/
theorem merge_blocked_no_output (gt : ρ → ρ → Bool) (size : ρ → Nat) (budget : Nat)
    (st : MergeState ρ) (hwf : FrontierWF st) :
    ((ensureSourcesReady st).blocked = true → (getOutput gt size budget st).2 = []) ∧
    ((getOutput gt size budget st).2 ≠ [] →
      (ensureSourcesReady st).blocked = false ∧
      ∀ i, covOrExh (ensureSourcesReady st) i) ∧
    ((getOutput gt size budget st).1.blocked = false →
      ∀ i, covOrExh (getOutput gt size budget st).1 i) := by
  refine ⟨?_, ?_, (getOutput_wf_cov gt size budget st hwf).2⟩
  · intro hb
    simp [getOutput, hb]
  · intro hne
    by_cases hb : (ensureSourcesReady st).blocked
    · exact absurd (by simp [getOutput, hb]) hne
    · exact ⟨by simpa using hb, ensure_cov st (by simpa using hb)⟩

/-- Witness for C3: source 0 reports not-ready while source 1 has a row
available; the call emits nothing, and once source 0 wakes the merged output
appears. -/
theorem merge_blocked_no_output_witness :
    (ensureSourcesReady (initState [[SourceResp.blocked, SourceResp.batch [(5 : Int)],
        SourceResp.eos], [SourceResp.batch [7], SourceResp.eos]])).blocked = true ∧
    (getOutput (fun a b : Int => decide (a > b)) (fun _ => 1) kBatchSizeInBytes
      (initState [[SourceResp.blocked, SourceResp.batch [(5 : Int)], SourceResp.eos],
        [SourceResp.batch [7], SourceResp.eos]])).2 = [] ∧
    (runCalls (fun a b : Int => decide (a > b)) (fun _ => 1) kBatchSizeInBytes 3
      (initState [[SourceResp.blocked, SourceResp.batch [(5 : Int)], SourceResp.eos],
        [SourceResp.batch [7], SourceResp.eos]])).2 = [5, 7] :=
  ⟨by decide,
   (merge_blocked_no_output (fun a b : Int => decide (a > b)) (fun _ => 1) kBatchSizeInBytes
      (initState [[SourceResp.blocked, SourceResp.batch [(5 : Int)], SourceResp.eos],
        [SourceResp.batch [7], SourceResp.eos]])
      ⟨by simp [initState], by simp [initState], by simp [initState]⟩).1 (by decide),
   by decide⟩

/-- The scripts of the partial-batch scenario: source 0 yields one row, then
reports not-ready, then yields another; source 1 has two rows ready. -/
def partialBatchScripts : List (List (SourceResp Int)) :=
  [[SourceResp.batch [1], SourceResp.blocked, SourceResp.batch [3], SourceResp.eos],
   [SourceResp.batch [2, 4], SourceResp.eos]]

/-- Claim C8: if the source just popped reports not-ready on refill, the
engine stops extracting but still returns the rows already extracted (the
engine never discards rows: every call's output plus what remains pending is
exactly what was pending before), records the blocking condition, and
surfaces it on the next isBlocked query; the following call resumes and
returns the withheld rows. -/
theorem partial_batch_on_block :
    (∀ (σ : Type) (gt : σ → σ → Bool) (size : σ → Nat) (budget : Nat) (st : MergeState σ),
      List.Perm ((getOutput gt size budget st).2 ++
        pendingRows (getOutput gt size budget st).1) (pendingRows st)) ∧
    (getOutput (fun a b : Int => decide (a > b)) (fun _ => 1) kBatchSizeInBytes
      (initState partialBatchScripts)).2 = [1] ∧
    isBlocked (getOutput (fun a b : Int => decide (a > b)) (fun _ => 1) kBatchSizeInBytes
      (initState partialBatchScripts)).1 = true ∧
    (getOutput (fun a b : Int => decide (a > b)) (fun _ => 1) kBatchSizeInBytes
      (getOutput (fun a b : Int => decide (a > b)) (fun _ => 1) kBatchSizeInBytes
        (initState partialBatchScripts)).1).2 = [2, 3, 4] :=
  ⟨fun σ gt size budget st => getOutput_perm gt size budget st,
   by decide, by decide, by decide⟩

/-- Claim C9: constructing the operator with a malformed configuration — an
empty SortKey list — fails fast with a descriptive fault instead of
proceeding with all rows considered equal. -/
theorem empty_sort_keys_fail_fast (scripts : List (List (SourceResp ρ)))
    (keyInfo : List (Nat × SortOrder)) :
    (keyInfo = [] → mergeInit keyInfo scripts =
      Except.error "Merge: the list of sorting keys must not be empty") ∧
    (keyInfo ≠ [] → mergeInit keyInfo scripts = Except.ok (keyInfo, initState scripts)) := by
  constructor
  · rintro rfl
    rfl
  · intro h
    simp [mergeInit, h]

/-- Witness for C9: the empty key list is rejected, a singleton key list is
accepted. -/
theorem empty_sort_keys_fail_fast_witness :
    mergeInit ([] : List (Nat × SortOrder)) ([[]] : List (List (SourceResp Int))) =
      Except.error "Merge: the list of sorting keys must not be empty" ∧
    mergeInit [(0, ⟨true, true⟩)] ([[]] : List (List (SourceResp Int))) =
      Except.ok ([(0, ⟨true, true⟩)], initState [[]]) :=
  ⟨(empty_sort_keys_fail_fast [[]] []).1 rfl,
   (empty_sort_keys_fail_fast [[]] [(0, ⟨true, true⟩)]).2 (by decide)⟩

/-- The byte size of a batch grows additively row by row. -/
theorem sizeSum_append (size : ρ → Nat) (rows : List ρ) (r : ρ) :
    sizeSum size (rows ++ [r]) = sizeSum size rows + size r := by
  simp [sizeSum]

/-- Budget invariant of the extraction loop: before each appended row the
accumulated size was below the budget, so a batch exceeds the budget at most
by its final row. -/
theorem extractLoop_budget (gt : ρ → ρ → Bool) (size : ρ → Nat) (budget : Nat) :
    ∀ (fuel : Nat) (st : MergeState ρ) (out : List ρ) (bytes : Nat),
    bytes = sizeSum size out →
    (out = [] ∨ sizeSum size out.dropLast < budget) →
    ((extractLoop gt size budget fuel st out bytes).2 = [] ∨
      sizeSum size ((extractLoop gt size budget fuel st out bytes).2.dropLast) < budget) := by
  intro fuel
  induction fuel with
  | zero => intro st out bytes hbytes hinv; exact hinv
  | succ fuel ih =>
    intro st out bytes hbytes hinv
    simp only [extractLoop]
    by_cases hlt : bytes < budget
    · simp only [hlt, if_true]
      cases hpop : popMin gt st.frontier with
      | none => exact hinv
      | some p =>
        obtain ⟨m, rest⟩ := p
        have hnew : (out ++ [m.2]).dropLast = out := List.dropLast_concat
        have hnewinv : out ++ [m.2] = [] ∨ sizeSum size ((out ++ [m.2]).dropLast) < budget :=
          Or.inr (by rw [hnew, ← hbytes]; exact hlt)
        by_cases hb : (pushSource ⟨st.srcs, rest, st.blocked⟩ m.1).blocked
        · simp only [hb, if_true]
          exact hnewinv
        · simp only [hb, if_false]
          exact ih _ _ _ (by rw [sizeSum_append, hbytes]) hnewinv
    · simp only [hlt, if_false]
      exact hinv

/-- Claim C6 (amended): every output batch is either empty or its accumulated
byte size excluding the final row is strictly below the 2 MiB budget
`kBatchSizeInBytes`; a batch can exceed the budget only by (part of) its
final row, and in particular a single oversized row is still returned rather
than an empty batch. -/
theorem batch_budget_overshoot_bound (gt : ρ → ρ → Bool) (size : ρ → Nat)
    (st : MergeState ρ) :
    (getOutput gt size kBatchSizeInBytes st).2 = [] ∨
    sizeSum size ((getOutput gt size kBatchSizeInBytes st).2.dropLast) <
      kBatchSizeInBytes := by
  simp only [getOutput]
  by_cases hb : (ensureSourcesReady st).blocked
  · simp only [hb, if_true]
    exact Or.inl (by simp)
  · simp only [hb, if_false]
    exact extractLoop_budget gt size kBatchSizeInBytes _ _ [] 0 (by simp [sizeSum]) (by simp)

/-- Counterexample to claim C6 as stated: with rows of 1500000 bytes the
first call returns a two-row batch of 3000000 bytes, exceeding the 2 MiB
budget even though stopping one row earlier would still have returned a
non-empty batch — so a batch may exceed the budget in other cases than only
to avoid returning an empty batch. -/
theorem batch_budget_counterexample :
    (getOutput (fun a b : Int => decide (a > b)) (fun _ => 1500000) kBatchSizeInBytes
      (initState [[SourceResp.batch [1, 2, 3], SourceResp.eos]])).2 = [1, 2] ∧
    kBatchSizeInBytes <
      sizeSum (fun _ => 1500000)
        (getOutput (fun a b : Int => decide (a > b)) (fun _ => 1500000) kBatchSizeInBytes
          (initState [[SourceResp.batch [1, 2, 3], SourceResp.eos]])).2 ∧
    (1 : Nat) ≤
      ((getOutput (fun a b : Int => decide (a > b)) (fun _ => 1500000) kBatchSizeInBytes
        (initState [[SourceResp.batch [1, 2, 3], SourceResp.eos]])).2.dropLast).length := by
  refine ⟨by decide, by decide, by decide⟩

/-- Source `i` is permanently inactive: exhausted and without any frontier
entry. -/
def inactiveUncovered (st : MergeState ρ) (i : Nat) : Prop :=
  (∀ s, st.srcs[i]? = some s → s.exhausted = true) ∧ hasCandidate st i = false

/-- An exhausted, uncovered source stays so through any `pushSource`. -/
theorem inactiveUncovered_pushSource {st : MergeState ρ} {i : Nat} (j : Nat)
    (h : inactiveUncovered st i) : inactiveUncovered (pushSource st j) i := by
  by_cases hij : j = i
  · subst hij
    have hid : pushSource st j = st := by
      rcases pushSource_cases st j with ⟨heq, _⟩ |
        ⟨s, r, rest', hsi, hex, ⟨hstg, heq⟩ | ⟨tl, hstg, hsc, heq⟩⟩ |
        ⟨s, tl, hsi, hex, hstg, hsc, heq⟩ |
        ⟨s, hsi, hex, hstg, ⟨tl, hsc, heq⟩ | ⟨hsc, heq⟩⟩
      · exact heq
      all_goals (rw [h.1 s hsi] at hex; cases hex)
    rw [hid]
    exact h
  · constructor
    · intro t ht
      rw [pushSource_srcs_other st j i hij] at ht
      exact h.1 t ht
    · rw [hasCandidate_false_iff]
      intro e he
      rcases pushSource_frontier_shape st j with hfr | ⟨r, hfr⟩
      · rw [hfr] at he
        exact (hasCandidate_false_iff st i).mp h.2 e he
      · rw [hfr] at he
        rcases List.mem_cons.mp he with rfl | he
        · exact hij
        · exact (hasCandidate_false_iff st i).mp h.2 e he

/-- An exhausted, uncovered source stays so when the frontier shrinks or the
blocking flag changes. -/
theorem inactiveUncovered_sub {st : MergeState ρ} {i : Nat}
    (h : inactiveUncovered st i) (fr : List (Nat × ρ)) (hsub : fr ⊆ st.frontier)
    (b : Bool) : inactiveUncovered ⟨st.srcs, fr, b⟩ i := by
  refine ⟨h.1, ?_⟩
  rw [hasCandidate_false_iff]
  intro e he
  exact (hasCandidate_false_iff st i).mp h.2 e (hsub he)

/-- An exhausted, uncovered source stays so through the ensure pass. -/
theorem inactiveUncovered_ensureLoop {st : MergeState ρ} {i : Nat}
    (h : inactiveUncovered st i) (l : List Nat) :
    inactiveUncovered (ensureLoop st l) i := by
  induction l generalizing st with
  | nil => exact h
  | cons j rest ih =>
    simp only [ensureLoop]
    cases hsi : st.srcs[j]? with
    | none => exact ih h
    | some s =>
      cases hskip : (s.exhausted || hasCandidate st j) with
      | true => simp only [hskip, if_true]; exact ih h
      | false =>
        simp only [hskip, Bool.false_eq_true, if_false]
        cases hb : (pushSource st j).blocked with
        | true =>
          simp only [hb, if_true]
          exact inactiveUncovered_pushSource j h
        | false =>
          simp only [hb, Bool.false_eq_true, if_false]
          exact ih (inactiveUncovered_pushSource j h)

/-- An exhausted, uncovered source stays so through the extraction loop. -/
theorem inactiveUncovered_extractLoop (gt : ρ → ρ → Bool) (size : ρ → Nat)
    (budget : Nat) :
    ∀ (fuel : Nat) (st : MergeState ρ) (out : List ρ) (bytes : Nat) {i : Nat},
    inactiveUncovered st i →
    inactiveUncovered (extractLoop gt size budget fuel st out bytes).1 i := by
  intro fuel
  induction fuel with
  | zero => intro st out bytes i h; exact h
  | succ fuel ih =>
    intro st out bytes i h
    simp only [extractLoop]
    by_cases hlt : bytes < budget
    · simp only [hlt, if_true]
      cases hpop : popMin gt st.frontier with
      | none => exact h
      | some p =>
        obtain ⟨m, rest⟩ := p
        have hsub : rest ⊆ st.frontier := fun e he =>
          (popMin_perm gt hpop).subset (List.mem_cons_of_mem _ he)
        have h2 : inactiveUncovered (pushSource ⟨st.srcs, rest, st.blocked⟩ m.1) i :=
          inactiveUncovered_pushSource m.1 (inactiveUncovered_sub h rest hsub st.blocked)
        by_cases hb : (pushSource ⟨st.srcs, rest, st.blocked⟩ m.1).blocked
        · simp only [hb, if_true]
          exact h2
        · simp only [hb, if_false]
          exact ih _ _ _ h2
    · simp only [hlt, if_false]
      exact h

/-- An exhausted, uncovered source stays so through a produce-output call. -/
theorem inactiveUncovered_getOutput (gt : ρ → ρ → Bool) (size : ρ → Nat)
    (budget : Nat) (st : MergeState ρ) {i : Nat} (h : inactiveUncovered st i) :
    inactiveUncovered (getOutput gt size budget st).1 i := by
  have hens : inactiveUncovered (ensureSourcesReady st) i := by
    unfold ensureSourcesReady
    exact inactiveUncovered_ensureLoop
      (inactiveUncovered_sub h st.frontier (fun e he => he) false) _
  simp only [getOutput]
  by_cases hb : (ensureSourcesReady st).blocked
  · simp only [hb, if_true]
    exact hens
  · simp only [hb, if_false]
    exact inactiveUncovered_extractLoop gt size budget _ _ _ _ hens

/-- An exhausted, uncovered source stays so through any number of calls. -/
theorem inactiveUncovered_runCalls (gt : ρ → ρ → Bool) (size : ρ → Nat)
    (budget : Nat) :
    ∀ (n : Nat) (st : MergeState ρ) {i : Nat}, inactiveUncovered st i →
    inactiveUncovered (runCalls gt size budget n st).1 i := by
  intro n
  induction n with
  | zero => intro st i h; exact h
  | succ n ih =>
    intro st i h
    simp only [runCalls]
    exact ih _ (inactiveUncovered_getOutput gt size budget st h)

/-- Claim C7: a source that yields EndOfStream is marked inactive permanently
and never regains a frontier entry; merging `[1,3]` and `[]` yields exactly
`[1,3]`. -/
theorem exhausted_source_stays_inactive :
    (∀ (σ : Type) (st : MergeState σ) (i : Nat) (s : SourceState σ)
      (tl : List (SourceResp σ)),
      st.srcs[i]? = some s → s.exhausted = false → s.staged = [] →
      s.script = SourceResp.eos :: tl →
      ∃ s', (pushSource st i).srcs[i]? = some s' ∧ s'.exhausted = true ∧
        (pushSource st i).frontier = st.frontier) ∧
    (∀ (σ : Type) (gt : σ → σ → Bool) (size : σ → Nat) (budget n : Nat)
      (st : MergeState σ) (i : Nat), inactiveUncovered st i →
      inactiveUncovered (runCalls gt size budget n st).1 i) ∧
    (runCalls (fun a b : Int => decide (a > b)) (fun _ => 1) kBatchSizeInBytes 3
      (initState [[SourceResp.batch [1, 3], SourceResp.eos], [SourceResp.eos]])).2 =
      [1, 3] := by
  refine ⟨?_, fun σ gt size budget n st i h => inactiveUncovered_runCalls gt size budget n st h,
    by decide⟩
  intro σ st i s tl hsi hex hstg hsc
  have hlen : i < st.srcs.length := (List.getElem?_eq_some_iff.mp hsi).1
  refine ⟨{ s with script := tl, exhausted := true }, ?_, rfl, ?_⟩
  · simp [pushSource, hsi, hex, hstg, hsc, List.getElem?_set_self hlen]
  · simp [pushSource, hsi, hex, hstg, hsc]

/-- Witness for C7: a freshly exhausted source (explicit EndOfStream pull)
and an exhausted source surviving two further calls untouched. -/
theorem exhausted_source_stays_inactive_witness :
    (∃ s', (pushSource (initState [[SourceResp.eos]] : MergeState Int) 0).srcs[0]? = some s' ∧
      s'.exhausted = true ∧
      (pushSource (initState [[SourceResp.eos]] : MergeState Int) 0).frontier =
        (initState [[SourceResp.eos]] : MergeState Int).frontier) ∧
    inactiveUncovered
      (runCalls (fun a b : Int => decide (a > b)) (fun _ => 1) kBatchSizeInBytes 2
        ⟨[⟨[], [], true⟩, ⟨[SourceResp.batch [9], SourceResp.eos], [], false⟩], [],
          false⟩).1 0 :=
  ⟨exhausted_source_stays_inactive.1 Int (initState [[SourceResp.eos]]) 0
      ⟨[SourceResp.eos], [], false⟩ [] (by simp [initState]) rfl rfl rfl,
   exhausted_source_stays_inactive.2.1 Int (fun a b : Int => decide (a > b)) (fun _ => 1)
      kBatchSizeInBytes 2
      ⟨[⟨[], [], true⟩, ⟨[SourceResp.batch [9], SourceResp.eos], [], false⟩], [], false⟩ 0
      ⟨fun s h => by
        rw [← (by simpa using h : (⟨[], [], true⟩ : SourceState Int) = s)], rfl⟩⟩

/-- Whether the source at index `i` is attached and active. -/
def activeAt (st : MergeState ρ) (i : Nat) : Bool :=
  ((st.srcs[i]?).map (fun s => !s.exhausted)).getD false

/-- Counting indices of a list through `getElem?` equals counting its
elements. -/
theorem countP_range_getElem (q : α → Bool) :
    ∀ (l : List α),
    (List.range l.length).countP (fun i => ((l[i]?).map q).getD false) = l.countP q := by
  intro l
  induction l with
  | nil => simp
  | cons a tl ih =>
    rw [List.length_cons, List.range_succ_eq_map, List.countP_cons, List.countP_map]
    have hcomp : ((fun i => (((a :: tl)[i]?).map q).getD false) ∘ Nat.succ)
        = (fun i => ((tl[i]?).map q).getD false) := by
      funext i
      simp [Function.comp]
    rw [hcomp, ih, List.countP_cons]
    simp

/-- In a well-formed, fully covered state the frontier has exactly one entry
per active source. -/
theorem frontier_length_eq_activeCount {st : MergeState ρ} (hwf : FrontierWF st)
    (hcov : ∀ i, covOrExh st i) : st.frontier.length = activeCount st := by
  have hmem : ∀ j, j ∈ st.frontier.map Prod.fst ↔
      j ∈ (List.range st.srcs.length).filter (activeAt st) := by
    intro j
    constructor
    · intro hj
      obtain ⟨e, he, rfl⟩ := List.mem_map.mp hj
      have hr : e.1 < st.srcs.length := hwf.range e he
      refine List.mem_filter.mpr ⟨List.mem_range.mpr hr, ?_⟩
      cases hs : st.srcs[e.1]? with
      | none =>
        exact absurd hs (by simp [List.getElem?_eq_some_iff, hr])
      | some s =>
        simp [activeAt, hs, hwf.active e he s hs]
    · intro hj
      obtain ⟨hrange, hp⟩ := List.mem_filter.mp hj
      cases hs : st.srcs[j]? with
      | none => simp [activeAt, hs] at hp
      | some s =>
        have hex : s.exhausted = false := by simpa [activeAt, hs] using hp
        rcases hcov j s hs with h | h
        · rw [h] at hex
          cases hex
        · obtain ⟨r, hr⟩ := (hasCandidate_iff st j).mp h
          exact List.mem_map.mpr ⟨(j, r), hr, rfl⟩
  have hnodup2 : ((List.range st.srcs.length).filter (activeAt st)).Nodup :=
    (List.nodup_range _).filter _
  have hlen1 := (List.subperm_of_subset hwf.nodup (fun j hj => (hmem j).mp hj)).length_le
  have hlen2 := (List.subperm_of_subset hnodup2 (fun j hj => (hmem j).mpr hj)).length_le
  have hlen : (st.frontier.map Prod.fst).length =
      ((List.range st.srcs.length).filter (activeAt st)).length :=
    Nat.le_antisymm hlen1 hlen2
  have hfun : activeAt st =
      fun i => ((st.srcs[i]?).map (fun s => !s.exhausted)).getD false := rfl
  have hcount : (List.range st.srcs.length).countP (activeAt st) =
      st.srcs.countP (fun s => !s.exhausted) := by
    rw [hfun]
    exact countP_range_getElem (fun s => !s.exhausted) st.srcs
  calc st.frontier.length
      = (st.frontier.map Prod.fst).length := by simp
    _ = ((List.range st.srcs.length).filter (activeAt st)).length := hlen
    _ = (List.range st.srcs.length).countP (activeAt st) :=
        (List.countP_eq_length_filter _ _).symm
    _ = st.srcs.countP (fun s => !s.exhausted) := hcount
    _ = activeCount st := List.countP_eq_length_filter _ _

/-- Claim C5: at every reachable state (after at least one call, so that the
static provisioning has run) the frontier never holds two rows of the same
source; when the engine is not blocked, a source has a frontier entry exactly
when it is active (non-exhausted), so the frontier holds exactly one entry
per active source. -/
theorem frontier_one_entry_per_active_source (gt : ρ → ρ → Bool) (size : ρ → Nat)
    (budget : Nat) (scripts : List (List (SourceResp ρ))) (n : Nat) :
    List.Nodup
      (((runCalls gt size budget (n + 1) (initState scripts)).1.frontier).map Prod.fst) ∧
    ((runCalls gt size budget (n + 1) (initState scripts)).1.blocked = false →
      (∀ i s, (runCalls gt size budget (n + 1) (initState scripts)).1.srcs[i]? = some s →
        (s.exhausted = false ↔
          hasCandidate (runCalls gt size budget (n + 1) (initState scripts)).1 i = true)) ∧
      (runCalls gt size budget (n + 1) (initState scripts)).1.frontier.length =
        activeCount (runCalls gt size budget (n + 1) (initState scripts)).1) := by
  have hinitwf : FrontierWF (initState scripts) :=
    ⟨by simp [initState], by simp [initState], by simp [initState]⟩
  obtain ⟨hwf, hcov⟩ := runCalls_wf_cov gt size budget n (initState scripts) hinitwf
  refine ⟨hwf.nodup, fun hb => ⟨?_, frontier_length_eq_activeCount hwf (hcov hb)⟩⟩
  intro i s hs
  constructor
  · intro hex
    rcases hcov hb i s hs with h | h
    · rw [h] at hex
      cases hex
    · exact h
  · intro hc
    obtain ⟨r, hr⟩ := (hasCandidate_iff _ i).mp hc
    exact hwf.active (i, r) hr s hs

/-- Witness for C5: the three-source merge scenario after one call — no
duplicated source index, and the frontier size equals the number of active
sources. -/
theorem frontier_one_entry_per_active_source_witness :
    List.Nodup
      (((runCalls (fun a b : Int => decide (a > b)) (fun _ => 1) kBatchSizeInBytes 1
        (initState [[SourceResp.batch [1, 4, 7], SourceResp.eos],
          [SourceResp.batch [2, 5], SourceResp.eos],
          [SourceResp.batch [3, 6, 8, 9], SourceResp.eos]])).1.frontier).map Prod.fst) ∧
    (runCalls (fun a b : Int => decide (a > b)) (fun _ => 1) kBatchSizeInBytes 1
      (initState [[SourceResp.batch [1, 4, 7], SourceResp.eos],
        [SourceResp.batch [2, 5], SourceResp.eos],
        [SourceResp.batch [3, 6, 8, 9], SourceResp.eos]])).1.frontier.length =
      activeCount (runCalls (fun a b : Int => decide (a > b)) (fun _ => 1) kBatchSizeInBytes 1
        (initState [[SourceResp.batch [1, 4, 7], SourceResp.eos],
          [SourceResp.batch [2, 5], SourceResp.eos],
          [SourceResp.batch [3, 6, 8, 9], SourceResp.eos]])).1 :=
  ⟨(frontier_one_entry_per_active_source (fun a b : Int => decide (a > b)) (fun _ => 1)
      kBatchSizeInBytes [[SourceResp.batch [1, 4, 7], SourceResp.eos],
        [SourceResp.batch [2, 5], SourceResp.eos],
        [SourceResp.batch [3, 6, 8, 9], SourceResp.eos]] 0).1,
   ((frontier_one_entry_per_active_source (fun a b : Int => decide (a > b)) (fun _ => 1)
      kBatchSizeInBytes [[SourceResp.batch [1, 4, 7], SourceResp.eos],
        [SourceResp.batch [2, 5], SourceResp.eos],
        [SourceResp.batch [3, 6, 8, 9], SourceResp.eos]] 0).2 (by decide)).2⟩

/-- The sortedness invariant carried through a run: the emitted rows are
pairwise ordered, every emitted row is ranked after no pending row, every
frontier entry is ranked after no pending row of its own source, and every
source's pending stream is itself ordered. -/
structure SortInv (gt : ρ → ρ → Bool) (st : MergeState ρ) (out : List ρ) : Prop where
  outSorted : List.Pairwise (fun a b => gt a b = false) out
  outPending : ∀ o ∈ out, ∀ p ∈ pendingRows st, gt o p = false
  fLe : ∀ e ∈ st.frontier, ∀ s, st.srcs[e.1]? = some s →
    ∀ p ∈ pendingOf s, gt e.2 p = false
  srcSorted : ∀ s ∈ st.srcs, List.Pairwise (fun a b => gt a b = false) (pendingOf s)

/-- Changing only the blocking flag does not disturb the sort invariant. -/
theorem sortInv_setBlocked {gt : ρ → ρ → Bool} {st : MergeState ρ} {out : List ρ}
    (hinv : SortInv gt st out) (b : Bool) :
    SortInv gt ⟨st.srcs, st.frontier, b⟩ out :=
  ⟨hinv.outSorted, hinv.outPending, hinv.fLe, hinv.srcSorted⟩

/-- `pushSource` preserves the sort invariant when the pushed source has no
candidate in the frontier yet. -/
theorem sortInv_pushSource {gt : ρ → ρ → Bool} {st : MergeState ρ} {out : List ρ}
    {i : Nat} (hinv : SortInv gt st out) (hnc : hasCandidate st i = false) :
    SortInv gt (pushSource st i) out := by
  have hmemP : ∀ p, p ∈ pendingRows (pushSource st i) → p ∈ pendingRows st :=
    fun p hp => (pushSource_pendingRows_perm st i).mem_iff.mp hp
  have houtP : ∀ o ∈ out, ∀ p ∈ pendingRows (pushSource st i), gt o p = false :=
    fun o ho p hp => hinv.outPending o ho p (hmemP p hp)
  have hne : ∀ e ∈ st.frontier, e.1 ≠ i := (hasCandidate_false_iff st i).mp hnc
  rcases pushSource_cases st i with ⟨heq, _⟩ |
    ⟨s, r, rest', hsi, hex, ⟨hstg, heq⟩ | ⟨tl, hstg, hsc, heq⟩⟩ |
    ⟨s, tl, hsi, hex, hstg, hsc, heq⟩ |
    ⟨s, hsi, hex, hstg, ⟨tl, hsc, heq⟩ | ⟨hsc, heq⟩⟩
  · rw [heq] at houtP ⊢
    exact ⟨hinv.outSorted, houtP, hinv.fLe, hinv.srcSorted⟩
  · have hlen : i < st.srcs.length := (List.getElem?_eq_some_iff.mp hsi).1
    have hsmem : s ∈ st.srcs := by
      rcases List.mem_iff_getElem?.mpr ⟨i, hsi⟩ with h
      exact h
    have hsrt := hinv.srcSorted s hsmem
    rw [show pendingOf s = r :: (rest' ++ scriptRows s.script) by
      simp [pendingOf, hex, hstg]] at hsrt
    obtain ⟨hhead, htail⟩ := List.pairwise_cons.mp hsrt
    rw [heq] at houtP ⊢
    refine ⟨hinv.outSorted, houtP, ?_, ?_⟩
    · intro e he t ht p hp
      rcases List.mem_cons.mp he with rfl | he
      · have ht' : t = { s with staged := rest' } := by
          have := ht
          rw [List.getElem?_set_self hlen] at this
          exact ((Option.some.injEq _ _).mp this).symm
        subst ht'
        have hp' : p ∈ rest' ++ scriptRows s.script := by
          simpa [pendingOf, hex] using hp
        exact hhead p hp'
      · have ht' : st.srcs[e.1]? = some t := by
          have hne' : i ≠ e.1 := fun h => hne e he h.symm
          rw [List.getElem?_set_ne hne'] at ht
          exact ht
        exact hinv.fLe e he t ht' p hp
    · intro t htmem
      rcases List.mem_or_eq_of_mem_set htmem with htmem | rfl
      · exact hinv.srcSorted t htmem
      · have : pendingOf { s with staged := rest' } = rest' ++ scriptRows s.script := by
          simp [pendingOf, hex]
        rw [this]
        exact htail
  · have hlen : i < st.srcs.length := (List.getElem?_eq_some_iff.mp hsi).1
    have hsmem : s ∈ st.srcs := List.mem_iff_getElem?.mpr ⟨i, hsi⟩
    have hsrt := hinv.srcSorted s hsmem
    rw [show pendingOf s = r :: (rest' ++ scriptRows tl) by
      simp [pendingOf, hex, hstg, hsc, scriptRows]] at hsrt
    obtain ⟨hhead, htail⟩ := List.pairwise_cons.mp hsrt
    rw [heq] at houtP ⊢
    refine ⟨hinv.outSorted, houtP, ?_, ?_⟩
    · intro e he t ht p hp
      rcases List.mem_cons.mp he with rfl | he
      · have ht' : t = { s with script := tl, staged := rest' } := by
          have := ht
          rw [List.getElem?_set_self hlen] at this
          exact ((Option.some.injEq _ _).mp this).symm
        subst ht'
        have hp' : p ∈ rest' ++ scriptRows tl := by
          simpa [pendingOf, hex] using hp
        exact hhead p hp'
      · have ht' : st.srcs[e.1]? = some t := by
          have hne' : i ≠ e.1 := fun h => hne e he h.symm
          rw [List.getElem?_set_ne hne'] at ht
          exact ht
        exact hinv.fLe e he t ht' p hp
    · intro t htmem
      rcases List.mem_or_eq_of_mem_set htmem with htmem | rfl
      · exact hinv.srcSorted t htmem
      · have : pendingOf { s with script := tl, staged := rest' } =
            rest' ++ scriptRows tl := by
          simp [pendingOf, hex]
        rw [this]
        exact htail
  · have hsmem : s ∈ st.srcs := List.mem_iff_getElem?.mpr ⟨i, hsi⟩
    have hpend : pendingOf ({ s with script := tl } : SourceState ρ) = pendingOf s := by
      rcases hsc with hsc | hsc <;> simp [pendingOf, hex, hstg, hsc, scriptRows]
    rw [heq] at houtP ⊢
    refine ⟨hinv.outSorted, houtP, ?_, ?_⟩
    · intro e he t ht p hp
      have hne' : i ≠ e.1 := fun h => hne e he h.symm
      have ht' : st.srcs[e.1]? = some t := by
        rw [List.getElem?_set_ne hne'] at ht
        exact ht
      exact hinv.fLe e he t ht' p hp
    · intro t htmem
      rcases List.mem_or_eq_of_mem_set htmem with htmem | rfl
      · exact hinv.srcSorted t htmem
      · rw [hpend]
        exact hinv.srcSorted s hsmem
  · rw [heq] at houtP ⊢
    refine ⟨hinv.outSorted, houtP, ?_, ?_⟩
    · intro e he t ht p hp
      have hne' : i ≠ e.1 := fun h => hne e he h.symm
      have ht' : st.srcs[e.1]? = some t := by
        rw [List.getElem?_set_ne hne'] at ht
        exact ht
      exact hinv.fLe e he t ht' p hp
    · intro t htmem
      rcases List.mem_or_eq_of_mem_set htmem with htmem | rfl
      · exact hinv.srcSorted t htmem
      · have : pendingOf ({ s with script := tl, exhausted := true } : SourceState ρ) = [] := by
          simp [pendingOf]
        rw [this]
        exact List.Pairwise.nil
  · rw [heq] at houtP ⊢
    refine ⟨hinv.outSorted, houtP, ?_, ?_⟩
    · intro e he t ht p hp
      have hne' : i ≠ e.1 := fun h => hne e he h.symm
      have ht' : st.srcs[e.1]? = some t := by
        rw [List.getElem?_set_ne hne'] at ht
        exact ht
      exact hinv.fLe e he t ht' p hp
    · intro t htmem
      rcases List.mem_or_eq_of_mem_set htmem with htmem | rfl
      · exact hinv.srcSorted t htmem
      · have : pendingOf ({ s with exhausted := true } : SourceState ρ) = [] := by
          simp [pendingOf]
        rw [this]
        exact List.Pairwise.nil

/-- Popping the globally-first entry emits a row that is ranked after nothing
still pending: the sort invariant extends to the grown output. -/
theorem sortInv_pop {gt : ρ → ρ → Bool} {st : MergeState ρ} {out : List ρ}
    {m : Nat × ρ} {rest : List (Nat × ρ)}
    (hinv : SortInv gt st out) (hcov : ∀ i, covOrExh st i)
    (hasym : GtAsymm gt) (htrans : LeTrans gt)
    (hpop : popMin gt st.frontier = some (m, rest)) (b : Bool) :
    SortInv gt ⟨st.srcs, rest, b⟩ (out ++ [m.2]) := by
  have hsub : rest ⊆ st.frontier := fun e he =>
    (popMin_perm gt hpop).subset (List.mem_cons_of_mem _ he)
  have hmin := popMin_min gt hasym htrans hpop
  have hmemst : m.2 ∈ pendingRows st := by
    simp only [pendingRows, List.mem_append]
    exact Or.inl (List.mem_map_of_mem Prod.snd (popMin_mem gt hpop))
  have hsubPend : ∀ p, p ∈ pendingRows ⟨st.srcs, rest, b⟩ → p ∈ pendingRows st := by
    intro p hp
    simp only [pendingRows, List.mem_append] at hp ⊢
    rcases hp with hp | hp
    · obtain ⟨e, he, rfl⟩ := List.mem_map.mp hp
      exact Or.inl (List.mem_map_of_mem Prod.snd (hsub he))
    · exact Or.inr hp
  have hkey : ∀ p ∈ pendingRows ⟨st.srcs, rest, b⟩, gt m.2 p = false := by
    intro p hp
    simp only [pendingRows, List.mem_append] at hp
    rcases hp with hp | hp
    · obtain ⟨e, he, rfl⟩ := List.mem_map.mp hp
      exact hmin e he
    · obtain ⟨x, hx, hpx⟩ := List.mem_flatten.mp hp
      obtain ⟨s, hsmem, rfl⟩ := List.mem_map.mp hx
      obtain ⟨j, hj⟩ := List.mem_iff_getElem?.mp hsmem
      cases hexj : s.exhausted with
      | true => simp [pendingOf, hexj] at hpx
      | false =>
        rcases hcov j s hj with h | h
        · rw [h] at hexj
          cases hexj
        · obtain ⟨r, hr⟩ := (hasCandidate_iff st j).mp h
          have hrm : (j, r) ∈ m :: rest := (popMin_perm gt hpop).mem_iff.mpr hr
          rcases List.mem_cons.mp hrm with heq | hrm
          · subst heq
            exact hinv.fLe (j, r) hr s hj p hpx
          · exact htrans _ _ _ (hmin (j, r) hrm) (hinv.fLe (j, r) (hsub hrm) s hj p hpx)
  refine ⟨?_, ?_, ?_, hinv.srcSorted⟩
  · rw [List.pairwise_append]
    refine ⟨hinv.outSorted, List.pairwise_singleton _ _, ?_⟩
    intro o ho c hc
    rw [List.mem_singleton.mp hc]
    exact hinv.outPending o ho m.2 hmemst
  · intro o ho p hp
    rcases List.mem_append.mp ho with ho | ho
    · exact hinv.outPending o ho p (hsubPend p hp)
    · rw [List.mem_singleton.mp ho]
      exact hkey p hp
  · intro e he s hs p hp
    exact hinv.fLe e (hsub he) s hs p hp

/-- The ensure pass preserves the sort invariant. -/
theorem sortInv_ensureLoop {gt : ρ → ρ → Bool} {st : MergeState ρ} {out : List ρ}
    (hinv : SortInv gt st out) (l : List Nat) :
    SortInv gt (ensureLoop st l) out := by
  induction l generalizing st with
  | nil => exact hinv
  | cons i rest ih =>
    simp only [ensureLoop]
    cases hsi : st.srcs[i]? with
    | none => exact ih hinv
    | some s =>
      cases hskip : (s.exhausted || hasCandidate st i) with
      | true => simp only [hskip, if_true]; exact ih hinv
      | false =>
        simp only [hskip, Bool.false_eq_true, if_false]
        have hnc : hasCandidate st i = false := (Bool.or_eq_false_iff.mp hskip).2
        cases hb : (pushSource st i).blocked with
        | true =>
          simp only [hb, if_true]
          exact sortInv_pushSource hinv hnc
        | false =>
          simp only [hb, Bool.false_eq_true, if_false]
          exact ih (sortInv_pushSource hinv hnc)

/-- The ensure entry point preserves the sort invariant. -/
theorem sortInv_ensure {gt : ρ → ρ → Bool} {st : MergeState ρ} {out : List ρ}
    (hinv : SortInv gt st out) : SortInv gt (ensureSourcesReady st) out := by
  unfold ensureSourcesReady
  exact sortInv_ensureLoop (sortInv_setBlocked hinv false) _

/-- The extraction loop preserves the sort invariant, with an arbitrary
already-emitted prefix in front of its accumulated batch. -/
theorem sortInv_extractLoop (gt : ρ → ρ → Bool) (size : ρ → Nat) (budget : Nat)
    (hasym : GtAsymm gt) (htrans : LeTrans gt) :
    ∀ (fuel : Nat) (st : MergeState ρ) (loopOut : List ρ) (bytes : Nat)
      (outPrev : List ρ),
    SortInv gt st (outPrev ++ loopOut) → FrontierWF st → (∀ i, covOrExh st i) →
    SortInv gt (extractLoop gt size budget fuel st loopOut bytes).1
      (outPrev ++ (extractLoop gt size budget fuel st loopOut bytes).2) := by
  intro fuel
  induction fuel with
  | zero => intro st loopOut bytes outPrev hinv hwf hcov; exact hinv
  | succ fuel ih =>
    intro st loopOut bytes outPrev hinv hwf hcov
    simp only [extractLoop]
    by_cases hlt : bytes < budget
    · simp only [hlt, if_true]
      cases hpop : popMin gt st.frontier with
      | none => exact hinv
      | some p =>
        obtain ⟨m, rest⟩ := p
        obtain ⟨hwfPop, hncPop⟩ := frontierWF_pop hwf hpop st.blocked
        have hinvPop : SortInv gt ⟨st.srcs, rest, st.blocked⟩
            (outPrev ++ (loopOut ++ [m.2])) := by
          rw [← List.append_assoc]
          exact sortInv_pop hinv hcov hasym htrans hpop st.blocked
        have hinv2 : SortInv gt (pushSource ⟨st.srcs, rest, st.blocked⟩ m.1)
            (outPrev ++ (loopOut ++ [m.2])) := sortInv_pushSource hinvPop hncPop
        have hwf2 : FrontierWF (pushSource ⟨st.srcs, rest, st.blocked⟩ m.1) :=
          hwfPop.pushSource hncPop
        by_cases hb : (pushSource ⟨st.srcs, rest, st.blocked⟩ m.1).blocked
        · simp only [hb, if_true]
          exact hinv2
        · simp only [hb, if_false]
          refine ih _ _ _ _ hinv2 hwf2 ?_
          intro j
          by_cases hj : j = m.1
          · subst hj
            exact pushSource_covOrExh_self _ _ (by simpa using hb)
          · exact covOrExh_mono_pushSource m.1 (covOrExh_pop hpop hcov st.blocked j hj)
    · simp only [hlt, if_false]
      exact hinv

/-- One produce-output call extends the sort invariant to the grown output. -/
theorem sortInv_getOutput (gt : ρ → ρ → Bool) (size : ρ → Nat) (budget : Nat)
    (hasym : GtAsymm gt) (htrans : LeTrans gt) {st : MergeState ρ} {out : List ρ}
    (hinv : SortInv gt st out) (hwf : FrontierWF st) :
    SortInv gt (getOutput gt size budget st).1
      (out ++ (getOutput gt size budget st).2) := by
  simp only [getOutput]
  by_cases hb : (ensureSourcesReady st).blocked
  · simp only [hb, if_true]
    rw [List.append_nil]
    exact sortInv_ensure hinv
  · simp only [hb, if_false]
    refine sortInv_extractLoop gt size budget hasym htrans _ _ _ _ out
      (by rw [List.append_nil]; exact sortInv_ensure hinv)
      (frontierWF_ensure hwf) (ensure_cov st (by simpa using hb))

/-- Any number of produce-output calls extends the sort invariant to the full
concatenated output. -/
theorem sortInv_runCalls (gt : ρ → ρ → Bool) (size : ρ → Nat) (budget : Nat)
    (hasym : GtAsymm gt) (htrans : LeTrans gt) :
    ∀ (n : Nat) (st : MergeState ρ) (out : List ρ),
    SortInv gt st out → FrontierWF st →
    SortInv gt (runCalls gt size budget n st).1
      (out ++ (runCalls gt size budget n st).2) := by
  intro n
  induction n with
  | zero =>
    intro st out hinv hwf
    simpa [runCalls] using hinv
  | succ n ih =>
    intro st out hinv hwf
    simp only [runCalls]
    rw [← List.append_assoc]
    exact ih _ _ (sortInv_getOutput gt size budget hasym htrans hinv hwf)
      (getOutput_wf_cov gt size budget st hwf).1

/-- Claim C1: for every set of input sources, each individually sorted under
the configured SortKey list, and every non-empty SortKey list, the
concatenation of all output batches produced by getOutput over the operator's
lifetime is sorted (non-decreasing) under that SortKey list.  The row-store
comparison is assumed consistent: the induced Comparator order is asymmetric
and its complement transitive. -/
theorem merge_output_globally_sorted (compare : ρ → ρ → Nat → CompareFlags → Int)
    (keyInfo : List (Nat × SortOrder)) (hkeys : keyInfo ≠ [])
    (hasym : GtAsymm (keyGt compare keyInfo)) (htrans : LeTrans (keyGt compare keyInfo))
    (size : ρ → Nat) (budget : Nat) (scripts : List (List (SourceResp ρ)))
    (hsorted : ∀ sc ∈ scripts,
      List.Sorted (fun a b => keyGt compare keyInfo a b = false) (scriptRows sc))
    (n : Nat) :
    List.Sorted (fun a b => keyGt compare keyInfo a b = false)
      (runCalls (keyGt compare keyInfo) size budget n (initState scripts)).2 := by
  have hinit : SortInv (keyGt compare keyInfo) (initState scripts) [] := by
    refine ⟨List.Pairwise.nil, by simp, by simp [initState], ?_⟩
    intro s hs
    simp only [initState, List.mem_map] at hs
    obtain ⟨sc, hsc, rfl⟩ := hs
    have hpend : pendingOf ({ script := sc, staged := [], exhausted := false } :
        SourceState ρ) = scriptRows sc := by
      simp [pendingOf]
    rw [hpend]
    exact hsorted sc hsc
  have hinitwf : FrontierWF (initState scripts) :=
    ⟨by simp [initState], by simp [initState], by simp [initState]⟩
  have h := sortInv_runCalls (keyGt compare keyInfo) size budget hasym htrans n
    (initState scripts) [] hinit hinitwf
  have hs := h.outSorted
  rw [List.nil_append] at hs
  exact hs

/-- The Comparator order induced by subtraction on integers is the usual
strict order. -/
theorem intKeyGt (a b : Int) :
    keyGt (fun (x y : Int) _ _ => x - y) [(0, ⟨true, true⟩)] a b = decide (b < a) := by
  by_cases h : a = b
  · subst h
    simp [keyGt, comparatorOp]
  · have hne : a - b ≠ 0 := sub_ne_zero.mpr h
    simp [keyGt, comparatorOp, hne, sub_pos]

/-- Asymmetry of the integer Comparator order. -/
theorem intKeyGt_asym :
    GtAsymm (keyGt (fun (x y : Int) _ _ => x - y) [(0, ⟨true, true⟩)]) := by
  intro a b h
  rw [intKeyGt] at h ⊢
  simp at h ⊢
  omega

/-- Transitivity of the complement of the integer Comparator order. -/
theorem intKeyGt_letrans :
    LeTrans (keyGt (fun (x y : Int) _ _ => x - y) [(0, ⟨true, true⟩)]) := by
  intro a b c hab hbc
  rw [intKeyGt] at hab hbc ⊢
  simp at hab hbc ⊢
  omega

/-- Witness for C1: the three-source scenario `A=[1,4,7]`, `B=[2,5]`,
`C=[3,6,8,9]` under one ascending integer key — the concatenated output is
sorted and equals `[1,...,9]`. -/
theorem merge_output_globally_sorted_witness :
    List.Sorted (fun a b =>
      keyGt (fun (x y : Int) _ _ => x - y) [(0, ⟨true, true⟩)] a b = false)
      (runCalls (keyGt (fun (x y : Int) _ _ => x - y) [(0, ⟨true, true⟩)]) (fun _ => 1)
        kBatchSizeInBytes 2
        (initState [[SourceResp.batch [1, 4, 7], SourceResp.eos],
          [SourceResp.batch [2, 5], SourceResp.eos],
          [SourceResp.batch [3, 6, 8, 9], SourceResp.eos]])).2 ∧
    (runCalls (keyGt (fun (x y : Int) _ _ => x - y) [(0, ⟨true, true⟩)]) (fun _ => 1)
      kBatchSizeInBytes 2
      (initState [[SourceResp.batch [1, 4, 7], SourceResp.eos],
        [SourceResp.batch [2, 5], SourceResp.eos],
        [SourceResp.batch [3, 6, 8, 9], SourceResp.eos]])).2 =
      [1, 2, 3, 4, 5, 6, 7, 8, 9] := by
  have himp : ∀ a b : Int, a ≤ b →
      keyGt (fun (x y : Int) _ _ => x - y) [(0, ⟨true, true⟩)] a b = false := by
    intro a b hab
    rw [intKeyGt]
    simp
    omega
  have hsorted : ∀ sc ∈ [[SourceResp.batch [(1 : Int), 4, 7], SourceResp.eos],
      [SourceResp.batch [2, 5], SourceResp.eos],
      [SourceResp.batch [3, 6, 8, 9], SourceResp.eos]],
      List.Sorted (fun a b =>
        keyGt (fun (x y : Int) _ _ => x - y) [(0, ⟨true, true⟩)] a b = false)
        (scriptRows sc) := by
    intro sc hsc
    simp only [List.mem_cons, List.not_mem_nil, or_false] at hsc
    rcases hsc with rfl | rfl | rfl
    · exact (by norm_num [List.pairwise_cons] :
        List.Pairwise (fun a b : Int => a ≤ b) [1, 4, 7]).imp (fun h => himp _ _ h)
    · exact (by norm_num [List.pairwise_cons] :
        List.Pairwise (fun a b : Int => a ≤ b) [2, 5]).imp (fun h => himp _ _ h)
    · exact (by norm_num [List.pairwise_cons] :
        List.Pairwise (fun a b : Int => a ≤ b) [3, 6, 8, 9]).imp (fun h => himp _ _ h)
  refine ⟨merge_output_globally_sorted (fun (x y : Int) _ _ => x - y) [(0, ⟨true, true⟩)]
      (List.cons_ne_nil _ _) intKeyGt_asym intKeyGt_letrans (fun _ => 1) kBatchSizeInBytes
      [[SourceResp.batch [1, 4, 7], SourceResp.eos],
        [SourceResp.batch [2, 5], SourceResp.eos],
        [SourceResp.batch [3, 6, 8, 9], SourceResp.eos]] hsorted 2, ?_⟩
  have hgt : keyGt (fun (x y : Int) _ _ => x - y) [(0, ⟨true, true⟩)] =
      fun a b => decide (b < a) := funext fun a => funext fun b => intKeyGt a b
  rw [hgt]
  decide
